import Mathlib

/-!
Verification of the Opulent Voice (OPV) modem core signal-processing pipeline.

The definitions below are shallow embeddings of the C++ sources:
* `src/include/opvcxx/OPVRandomizer.h` (CCSDS LFSR whitening),
* `src/src/opv-mod.cpp` (Base-40 encoder, convolutional encoder, 67x32
  interleaver, frame encoder, HDL-matched MSK modulator FSM),
* `src/scripts/opv-demod-afc.cpp` (deinterleaver, soft-decision Viterbi
  decoder, frame decoder, sync tracker),
* the alternate 0x79/0x5B convolutional code variants found in the tree.

Machine bytes are modelled as `Nat` below 256, bits as `Nat` below 2, and the
soft-decision quantities of the decoder as `Int` (the C++ uses `int`).
-/

set_option maxRecDepth 100000

namespace OPV

/-- Parity helper: `__builtin_parity` restricted to 7-bit arguments, which is
how every call site in the sources uses it (the argument is a 7-bit mask of a
7-bit state vector). -/
def parity (v : Nat) : Nat :=
  (v ^^^ (v >>> 1) ^^^ (v >>> 2) ^^^ (v >>> 3) ^^^ (v >>> 4) ^^^ (v >>> 5) ^^^ (v >>> 6)) % 2

theorem parity_lt_two (v : Nat) : parity v < 2 := Nat.mod_lt _ (by norm_num)

/-- `CcsdsLfsr::clock` (OPVRandomizer.h): output the MSB of the 8-bit state,
feed back the XOR of bits 7,6,4,2 and shift left.  Returns (output, new state). -/
def lfsrClock (s : Nat) : Nat × Nat :=
  let output := (s >>> 7) &&& 1
  let feedback := ((s >>> 7) ^^^ (s >>> 6) ^^^ (s >>> 4) ^^^ (s >>> 2)) &&& 1
  (output, ((s <<< 1) ||| feedback) &&& 0xFF)

/-- One iteration of the loop body of `CcsdsLfsr::output_byte`. -/
def lfsrByteStep (rs : Nat × Nat) (i : Nat) : Nat × Nat :=
  let (b, s2) := lfsrClock rs.2
  (rs.1 ||| (b <<< i), s2)

/-- `CcsdsLfsr::output_byte`: eight clocks, MSB first.  Returns (byte, new state). -/
def lfsrByte (s : Nat) : Nat × Nat :=
  [7, 6, 5, 4, 3, 2, 1, 0].foldl lfsrByteStep (0, s)

/-- The whitening byte sequence: `n` successive `output_byte` results starting
from LFSR state `s`. -/
def lfsrBytes : Nat → Nat → List Nat
  | 0, _ => []
  | n + 1, s => (lfsrByte s).1 :: lfsrBytes n (lfsrByte s).2

/-- `OPVFrameRandomizer::operator()`: reset the LFSR to the seed 0xFF and XOR
every frame byte with the next whitening byte. -/
def randomize (frame : List Nat) : List Nat :=
  List.zipWith (fun p r => p ^^^ r) frame (lfsrBytes frame.length 0xFF)

/-- `OPVFrameRandomizer::derandomize` is the very same operation (it calls
`operator()`), and the inline derandomizer in `FrameDecoder::decode` computes
the identical byte sequence from seed 0xFF. -/
def derandomize (frame : List Nat) : List Nat :=
  randomize frame

theorem lfsrBytes_length (n s : Nat) : (lfsrBytes n s).length = n := by
  induction n generalizing s with
  | zero => rfl
  | succ n ih => simp [lfsrBytes, ih]

theorem zipWith_xor_cancel :
    ∀ (x w : List Nat), x.length = w.length →
      List.zipWith (fun p r => p ^^^ r) (List.zipWith (fun p r => p ^^^ r) x w) w = x := by
  intro x
  induction x with
  | nil => intro w _; simp
  | cons a t ih =>
    intro w h
    cases w with
    | nil => simp at h
    | cons b u =>
      simp only [List.zipWith_cons_cons]
      rw [ih u (by simpa using h)]
      simp [Nat.xor_assoc, Nat.xor_self, Nat.xor_zero]

theorem randomize_length (x : List Nat) : (randomize x).length = x.length := by
  simp [randomize, lfsrBytes_length]

/-- C8.  `derandomize (randomize x) = x` for every 134-byte payload: the
randomizer XORs with the whitening sequence that is a function only of the
seed 0xFF, the LFSR being reset at the start of each call, so applying the
operation twice restores the original bytes. -/
theorem derandomize_randomize (x : List Nat) (h : x.length = 134) :
    derandomize (randomize x) = x := by
  have hlen : (randomize x).length = x.length := randomize_length x
  unfold derandomize
  conv_lhs => rw [randomize, hlen]
  exact zipWith_xor_cancel x (lfsrBytes x.length 0xFF) (by rw [lfsrBytes_length])

/-- Witness for C8 at a concrete 134-byte payload. -/
theorem derandomize_randomize_witness :
    (List.replicate 134 0xAB).length = 134 ∧
      derandomize (randomize (List.replicate 134 0xAB)) = List.replicate 134 0xAB :=
  ⟨by simp, derandomize_randomize _ (by simp)⟩

/-! ### 67x32 block interleaver (opv-mod.cpp `interleave`, opv-demod-afc.cpp
`deinterleave_addr`) -/

/-- The address computed by both `interleave` (as scatter destination
`corrected_pos`) and `deinterleave_addr` (as gather source): transpose the
67x32 array, then reverse the bit order inside the containing byte. -/
def interleaveAddr (i : Nat) : Nat :=
  let p := (i % 32) * 67 + i / 32
  (p / 8) * 8 + (7 - p % 8)

/-- Inverse of `interleaveAddr` on indices below 2144 (byte-reverse, then the
inverse transpose).  Used only to state and prove the permutation facts. -/
def interleaveAddrInv (j : Nat) : Nat :=
  let p := (j / 8) * 8 + (7 - j % 8)
  (p % 67) * 32 + p / 67

theorem byteFlip_byteFlip (p : Nat) :
    (p / 8 * 8 + (7 - p % 8)) / 8 * 8 + (7 - (p / 8 * 8 + (7 - p % 8)) % 8) = p := by omega

theorem interleaveAddr_lt : ∀ i < 2144, interleaveAddr i < 2144 := by
  intro i hi
  have hp : (i % 32) * 67 + i / 32 < 2144 := by omega
  simp only [interleaveAddr]
  generalize (i % 32) * 67 + i / 32 = p at hp ⊢
  omega

theorem interleaveAddrInv_lt : ∀ j < 2144, interleaveAddrInv j < 2144 := by
  intro j hj; simp only [interleaveAddrInv]; omega

theorem interleaveAddrInv_addr : ∀ i < 2144, interleaveAddrInv (interleaveAddr i) = i := by
  intro i hi
  have h1 : interleaveAddrInv (interleaveAddr i) =
      ((((i % 32) * 67 + i / 32) / 8 * 8 + (7 - ((i % 32) * 67 + i / 32) % 8)) / 8 * 8 +
          (7 - (((i % 32) * 67 + i / 32) / 8 * 8 + (7 - ((i % 32) * 67 + i / 32) % 8)) % 8)) % 67
          * 32 +
        ((((i % 32) * 67 + i / 32) / 8 * 8 + (7 - ((i % 32) * 67 + i / 32) % 8)) / 8 * 8 +
          (7 - (((i % 32) * 67 + i / 32) / 8 * 8 + (7 - ((i % 32) * 67 + i / 32) % 8)) % 8)) / 67 :=
    rfl
  rw [h1, byteFlip_byteFlip ((i % 32) * 67 + i / 32)]
  omega

theorem interleaveAddr_inv : ∀ j < 2144, interleaveAddr (interleaveAddrInv j) = j := by
  intro j hj
  have h1 : interleaveAddr (interleaveAddrInv j) =
      ((((j / 8 * 8 + (7 - j % 8)) % 67 * 32 + (j / 8 * 8 + (7 - j % 8)) / 67) % 32 * 67 +
            ((j / 8 * 8 + (7 - j % 8)) % 67 * 32 + (j / 8 * 8 + (7 - j % 8)) / 67) / 32) / 8 * 8 +
        (7 - (((j / 8 * 8 + (7 - j % 8)) % 67 * 32 + (j / 8 * 8 + (7 - j % 8)) / 67) % 32 * 67 +
            ((j / 8 * 8 + (7 - j % 8)) % 67 * 32 + (j / 8 * 8 + (7 - j % 8)) / 67) / 32) % 8)) :=
    rfl
  have h2 : ((j / 8 * 8 + (7 - j % 8)) % 67 * 32 + (j / 8 * 8 + (7 - j % 8)) / 67) % 32 * 67 +
      ((j / 8 * 8 + (7 - j % 8)) % 67 * 32 + (j / 8 * 8 + (7 - j % 8)) / 67) / 32 =
      j / 8 * 8 + (7 - j % 8) := by omega
  rw [h1, h2, byteFlip_byteFlip j]

/-- `interleave` (opv-mod.cpp): scatter loop `temp[interleaveAddr i] = bits[i]`
over a fresh zeroed buffer.  `dflt` stands for the zero the C++ buffer is
value-initialised with. -/
def interleave {α : Type} (bits : List α) (dflt : α) : List α :=
  (List.range 2144).foldl (fun temp i => temp.set (interleaveAddr i) (bits.getD i dflt))
    (List.replicate 2144 dflt)

/-- `deinterleave` (opv-demod-afc.cpp, `FrameDecoder::decode`): gather
`out[i] = xs[deinterleave_addr i]`. -/
def deinterleave {α : Type} (xs : List α) (dflt : α) : List α :=
  (List.range 2144).map (fun i => xs.getD (interleaveAddr i) dflt)

theorem getD_set_ne {α : Type} (d x : α) :
    ∀ (l : List α) (i j : Nat), i ≠ j → (l.set i x).getD j d = l.getD j d := by
  intro l
  induction l with
  | nil => simp [List.set]
  | cons a t ih =>
    intro i j hij
    cases i with
    | zero =>
      cases j with
      | zero => exact absurd rfl hij
      | succ j => simp [List.set]
    | succ i =>
      cases j with
      | zero => simp [List.set]
      | succ j => simpa [List.set] using ih i j (by omega)

theorem getD_set_self {α : Type} (d x : α) :
    ∀ (l : List α) (j : Nat), j < l.length → (l.set j x).getD j d = x := by
  intro l
  induction l with
  | nil => intro j h; simp at h
  | cons a t ih =>
    intro j h
    cases j with
    | zero => simp [List.set]
    | succ j => simpa [List.set] using ih j (by simpa using h)

theorem foldl_set_getD_of_ne {α : Type} (f : Nat → Nat) (v : Nat → α) (d : α) (j : Nat) :
    ∀ (l : List Nat) (t : List α), (∀ i ∈ l, f i ≠ j) →
      (l.foldl (fun acc i => acc.set (f i) (v i)) t).getD j d = t.getD j d := by
  intro l
  induction l with
  | nil => intro t _; rfl
  | cons a tl ih =>
    intro t h
    simp only [List.foldl_cons]
    rw [ih _ fun i hi => h i (List.mem_cons_of_mem a hi)]
    exact getD_set_ne d (v a) t (f a) j (h a (List.mem_cons_self a tl))

theorem foldl_set_length {α : Type} (f : Nat → Nat) (v : Nat → α) :
    ∀ (l : List Nat) (t : List α),
      (l.foldl (fun acc i => acc.set (f i) (v i)) t).length = t.length := by
  intro l
  induction l with
  | nil => intro t; rfl
  | cons a tl ih => intro t; simp only [List.foldl_cons]; rw [ih]; simp

theorem foldl_set_getD_unique {α : Type} (f : Nat → Nat) (v : Nat → α) (d : α) (j i0 : Nat) :
    ∀ (l : List Nat) (t : List α), l.Nodup → i0 ∈ l → f i0 = j →
      (∀ i ∈ l, f i = j → i = i0) → j < t.length →
      (l.foldl (fun acc i => acc.set (f i) (v i)) t).getD j d = v i0 := by
  intro l
  induction l with
  | nil => intro t _ hmem; simp at hmem
  | cons a tl ih =>
    intro t hnd hmem hfi0 huniq hlen
    have hnd2 := List.nodup_cons.mp hnd
    simp only [List.foldl_cons]
    rcases List.mem_cons.mp hmem with h0 | h0
    · subst h0
      have htl : ∀ i ∈ tl, f i ≠ j := by
        intro i hi hfij
        exact hnd2.1 (huniq i (List.mem_cons_of_mem _ hi) hfij ▸ hi)
      rw [foldl_set_getD_of_ne f v d j tl _ htl, hfi0]
      exact getD_set_self d (v i0) t j hlen
    · exact ih _ hnd2.2 h0 hfi0
        (fun i hi hf => huniq i (List.mem_cons_of_mem _ hi) hf)
        (by simpa using hlen)

theorem interleave_getD {α : Type} (bits : List α) (dflt : α) (j : Nat) (hj : j < 2144) :
    (interleave bits dflt).getD j dflt = bits.getD (interleaveAddrInv j) dflt := by
  unfold interleave
  refine foldl_set_getD_unique interleaveAddr (fun i => bits.getD i dflt) dflt j
    (interleaveAddrInv j) (List.range 2144) _ (List.nodup_range 2144)
    (List.mem_range.mpr (interleaveAddrInv_lt j hj)) (interleaveAddr_inv j hj) ?_ (by simpa using hj)
  intro i hi hf
  have := interleaveAddrInv_addr i (List.mem_range.mp hi)
  rw [hf] at this
  exact this.symm

theorem interleave_length {α : Type} (bits : List α) (dflt : α) :
    (interleave bits dflt).length = 2144 := by
  unfold interleave
  rw [foldl_set_length]
  simp

theorem deinterleave_interleave {α : Type} (x : List α) (d : α) (h : x.length = 2144) :
    deinterleave (interleave x d) d = x := by
  apply List.ext_getElem
  · simp [deinterleave, h]
  · intro i h1 h2
    have hi : i < 2144 := by simpa [deinterleave] using h1
    have : (deinterleave (interleave x d) d)[i] =
        (interleave x d).getD (interleaveAddr i) d := by
      simp [deinterleave]
    rw [this, interleave_getD x d _ (interleaveAddr_lt i hi), interleaveAddrInv_addr i hi]
    rw [List.getD_eq_getElem?_getD, List.getElem?_eq_getElem h2]
    rfl

/-- C3.  The TX interleaver sends input bit `i` to output index
`interleaveAddr i` = `byte*8 + (7 - bit_in_byte)` for
`p = (i mod 32)*67 + i/32`, `byte = p/8`, `bit_in_byte = p mod 8`; the RX
deinterleaver gathers through the same address map, which inverts the scatter,
so `deinterleave (interleave x) = x` for every 2144-entry buffer. -/
theorem interleaver_roundtrip {α : Type} (x : List α) (d : α) (h : x.length = 2144) :
    (∀ i, i < 2144 → (interleave x d).getD (interleaveAddr i) d = x.getD i d) ∧
      deinterleave (interleave x d) d = x := by
  refine ⟨fun i hi => ?_, deinterleave_interleave x d h⟩
  rw [interleave_getD x d _ (interleaveAddr_lt i hi), interleaveAddrInv_addr i hi]

/-- Witness for C3 at a concrete 2144-bit buffer. -/
theorem interleaver_roundtrip_witness :
    (List.replicate 2144 (1 : Nat)).length = 2144 ∧
      ((∀ i, i < 2144 →
          (interleave (List.replicate 2144 (1 : Nat)) 0).getD (interleaveAddr i) 0 =
            (List.replicate 2144 (1 : Nat)).getD i 0) ∧
        deinterleave (interleave (List.replicate 2144 (1 : Nat)) 0) 0 =
          List.replicate 2144 (1 : Nat)) :=
  ⟨by simp, interleaver_roundtrip _ 0 (by simp)⟩

/-! ### Base-40 callsign encoding (opv-mod.cpp `Base40Encoder`,
OPVFrameHeader.h `encode_callsign`) -/

/-- Character map of `OPVFrameHeader::encode_callsign`: A-Z, 0-9, minus, slash
and dot have digits; everything else (including space and NUL padding) has
none.  `none` is the case in which the C++ either throws (`strict`) or adds
nothing to the accumulator. -/
def callsignDigit (c : Char) : Option Nat :=
  if 'A' ≤ c ∧ c ≤ 'Z' then some (c.toNat - 'A'.toNat + 1)
  else if '0' ≤ c ∧ c ≤ '9' then some (c.toNat - '0'.toNat + 27)
  else if c = '-' then some 37
  else if c = '/' then some 38
  else if c = '.' then some 39
  else none

/-- The accumulator loop of `encode_callsign` over the already reversed
character sequence: `encoded *= 40` then add the digit, throwing in strict
mode on an unmappable character. -/
def encodeCallsignLoop (strict : Bool) : Nat → List Char → Except Unit Nat
  | acc, [] => Except.ok acc
  | acc, c :: rest =>
    match callsignDigit c with
    | some d => encodeCallsignLoop strict (acc * 40 + d) rest
    | none =>
      if strict then Except.error () else encodeCallsignLoop strict (acc * 40) rest

/-- `OPVFrameHeader::encode_callsign`: reverse the characters, accumulate
base-40, and write the low 48 bits out big-endian as 6 bytes.  The C++
argument is a NUL-padded 10-char array; the NUL padding goes through the
unmappable-character case. -/
def encode_callsign (callsign : List Char) (strict : Bool) : Except Unit (List Nat) :=
  match encodeCallsignLoop strict 0 callsign.reverse with
  | Except.error e => Except.error e
  | Except.ok v =>
    Except.ok [(v >>> 40) &&& 0xFF, (v >>> 32) &&& 0xFF, (v >>> 24) &&& 0xFF,
      (v >>> 16) &&& 0xFF, (v >>> 8) &&& 0xFF, v &&& 0xFF]

/-- `Base40Encoder::char_to_digit` (opv-mod.cpp): also accepts lowercase, and
maps every unknown character silently to 0. -/
def base40CharToDigit (c : Char) : Nat :=
  if 'A' ≤ c ∧ c ≤ 'Z' then c.toNat - 'A'.toNat + 1
  else if 'a' ≤ c ∧ c ≤ 'z' then c.toNat - 'a'.toNat + 1
  else if '0' ≤ c ∧ c ≤ '9' then c.toNat - '0'.toNat + 27
  else if c = '-' then 37
  else if c = '/' then 38
  else if c = '.' then 39
  else 0

/-- `Base40Encoder::encode` (opv-mod.cpp): iterate characters last to first,
`value = value*40 + digit`, then pack the 48-bit value big-endian into 6
bytes.  It has no error path at all. -/
def base40Encode (callsign : List Char) : List Nat :=
  let v := callsign.foldr (fun c acc => acc * 40 + base40CharToDigit c) 0
  [(v >>> 40) &&& 0xFF, (v >>> 32) &&& 0xFF, (v >>> 24) &&& 0xFF, (v >>> 16) &&& 0xFF,
    (v >>> 8) &&& 0xFF, v &&& 0xFF]

/-- The Base-40 alphabet named by the specification: space, A-Z, 0-9, minus,
slash, dot. -/
def isBase40Char (c : Char) : Bool :=
  c == ' ' || (decide ('A' ≤ c) && decide (c ≤ 'Z')) ||
    (decide ('0' ≤ c) && decide (c ≤ '9')) || c == '-' || c == '/' || c == '.'

/-- C9 counterexample: the callsign `W!` contains the invalid character `!`,
yet the default (non-strict) `encode_callsign` and the modulator's
`Base40Encoder` both succeed, silently assigning `!` the digit 0 — no
InvalidInput error is reported to the caller. -/
theorem callsign_invalid_silently_encoded :
    isBase40Char '!' = false ∧
      encode_callsign ['W', '!'] false = Except.ok [0, 0, 0, 0, 0, 23] ∧
      base40Encode ['W', '!'] = [0, 0, 0, 0, 0, 23] := by
  exact ⟨by decide, rfl, by decide⟩

theorem encodeCallsignLoop_strict_error :
    ∀ (l : List Char) (acc : Nat), (∃ c ∈ l, callsignDigit c = none) →
      encodeCallsignLoop true acc l = Except.error () := by
  intro l
  induction l with
  | nil => intro acc h; simp at h
  | cons a rest ih =>
    intro acc h
    rcases h with ⟨c, hc, hnone⟩
    rcases List.mem_cons.mp hc with h0 | h0
    · subst h0
      simp [encodeCallsignLoop, hnone]
    · cases hd : callsignDigit a with
      | some d => simp [encodeCallsignLoop, hd]; exact ih _ ⟨c, h0, hnone⟩
      | none => simp [encodeCallsignLoop, hd]

theorem encodeCallsignLoop_lax_ok :
    ∀ (l : List Char) (acc : Nat), ∃ v, encodeCallsignLoop false acc l = Except.ok v := by
  intro l
  induction l with
  | nil => intro acc; exact ⟨acc, rfl⟩
  | cons a rest ih =>
    intro acc
    cases hd : callsignDigit a with
    | some d => simpa [encodeCallsignLoop, hd] using ih (acc * 40 + d)
    | none => simpa [encodeCallsignLoop, hd] using ih (acc * 40)

/-- C9 amended.  An InvalidInput error is reported only in strict mode: when
the callsign contains a character with no base-40 digit, `encode_callsign`
with `strict = true` returns an error, while the default `strict = false`
call (and `Base40Encoder`, which has no error path) silently encodes the
character as 0 and succeeds.  Both encoders are pure functions, so no
modulator state is touched either way. -/
theorem callsign_error_strict_only (cs : List Char)
    (h : ∃ c ∈ cs, callsignDigit c = none) :
    encode_callsign cs true = Except.error () ∧
      ∃ bs, encode_callsign cs false = Except.ok bs := by
  constructor
  · have := encodeCallsignLoop_strict_error cs.reverse 0
      (by rcases h with ⟨c, hc, hn⟩; exact ⟨c, List.mem_reverse.mpr hc, hn⟩)
    simp [encode_callsign, this]
  · obtain ⟨v, hv⟩ := encodeCallsignLoop_lax_ok cs.reverse 0
    exact ⟨[(v >>> 40) &&& 0xFF, (v >>> 32) &&& 0xFF, (v >>> 24) &&& 0xFF,
      (v >>> 16) &&& 0xFF, (v >>> 8) &&& 0xFF, v &&& 0xFF], by simp [encode_callsign, hv]⟩

/-- Witness for the amended C9 at the concrete callsign `W!`. -/
theorem callsign_error_strict_only_witness :
    (∃ c ∈ ['W', '!'], callsignDigit c = none) ∧
      (encode_callsign ['W', '!'] true = Except.error () ∧
        ∃ bs, encode_callsign ['W', '!'] false = Except.ok bs) :=
  ⟨⟨'!', by decide, by decide⟩, callsign_error_strict_only _ ⟨'!', by decide, by decide⟩⟩

/-! ### HDL-matched MSK modulator FSM (opv-mod.cpp `HDLModulator`) -/

/-- The discrete state registers of `HDLModulator` (the two NCO phase
accumulators are real-valued and carry no information relevant to the tone
selection): `d_val_xor_T` and `b_n`. -/
structure MskFsm where
  dValXorT : Int
  bN : Int

/-- `HDLModulator::reset`. -/
def mskReset : MskFsm := ⟨0, 1⟩

/-- The integer part of `HDLModulator::modulate_bit`: compute `d_val`,
`d_val_xor`, the encoded path values and the tone amplitudes `d_s1` (for F1)
and `d_s2` (for F2).  The `d_s1`/`d_s2` selection reads the register
`d_val_xor_T` as it stands on entry; only after the sample loop is
`d_val_xor_T` assigned the fresh `d_val_xor` and `b_n` toggled.  Returns
`(d_s1, d_s2, next state)`. -/
def modulateBitFsm (txBit : Nat) (st : MskFsm) : Int × Int × MskFsm :=
  let dVal : Int := if txBit = 0 then 1 else -1
  let dValXor : Int :=
    if dVal = 1 ∧ st.dValXorT = 1 then 1
    else if dVal = 1 ∧ st.dValXorT = -1 then -1
    else if dVal = -1 ∧ st.dValXorT = 1 then -1
    else if dVal = -1 ∧ st.dValXorT = -1 then 1
    else 1
  let dPos : Int := (dVal + 1) / 2
  let dNeg : Int := (dVal - 1) / 2
  let dPosEnc : Int := dPos
  let dNegEnc : Int := if st.bN = 0 then dNeg else -dNeg
  let dS1 : Int :=
    if dPosEnc = 1 ∧ st.dValXorT = 1 then 1
    else if dPosEnc = 1 ∧ st.dValXorT = -1 then -1
    else 0
  let dS2 : Int :=
    if dNegEnc = -1 ∧ st.dValXorT = 1 then -1
    else if dNegEnc = -1 ∧ st.dValXorT = -1 then 1
    else if dNegEnc = 1 ∧ st.dValXorT = 1 then 1
    else if dNegEnc = 1 ∧ st.dValXorT = -1 then -1
    else 0
  (dS1, dS2, ⟨dValXor, 1 - st.bN⟩)

/-- States of `HDLModulator` reachable from reset by modulating bits. -/
inductive MskReach : MskFsm → Prop
  | init : MskReach mskReset
  | step (b : Nat) (st : MskFsm) : MskReach st → MskReach (modulateBitFsm b st).2.2

theorem mskReach_dValXorT (st : MskFsm) (h : MskReach st) :
    st.dValXorT = 0 ∨ st.dValXorT = 1 ∨ st.dValXorT = -1 := by
  induction h with
  | init => exact Or.inl rfl
  | step b st2 _ _ =>
    right
    simp only [modulateBitFsm]
    split_ifs <;> simp

/-- C10 counterexample: the reset state is reachable, yet the first
modulated bit — either bit value — yields `d_s1 = d_s2 = 0`: the tone
selection reads `d_val_xor_T` while it is still 0, because the register is
assigned only after the sample loop, so the first 40-sample symbol after
reset is silence, not a single pure tone. -/
theorem msk_reset_symbol_silent :
    MskReach mskReset ∧
      (modulateBitFsm 0 mskReset).1 = 0 ∧ (modulateBitFsm 0 mskReset).2.1 = 0 ∧
      (modulateBitFsm 1 mskReset).1 = 0 ∧ (modulateBitFsm 1 mskReset).2.1 = 0 :=
  ⟨MskReach.init, by decide, by decide, by decide, by decide⟩

/-- C10 amended.  From reset, the first modulated symbol is silent
(`d_s1 = d_s2 = 0`): the amplitudes are computed from the pre-update
`d_val_xor_T = 0`, which is assigned (and `b_n` toggled) only after the
sample loop.  Every modulated bit leaves `d_val_xor_T` in `{-1, +1}`, and
from every reachable state whose `d_val_xor_T` is in `{-1, +1}` — that is,
from the second symbol on — exactly one of `d_s1`, `d_s2` is `1` or `-1`
and the other is `0`: every symbol after the first is a single pure tone,
never a sum of both tones and never silence. -/
theorem msk_single_tone :
    (∀ b : Nat,
        (modulateBitFsm b mskReset).1 = 0 ∧ (modulateBitFsm b mskReset).2.1 = 0) ∧
      (∀ (st : MskFsm) (b : Nat),
        (modulateBitFsm b st).2.2.dValXorT = 1 ∨
          (modulateBitFsm b st).2.2.dValXorT = -1) ∧
      (∀ st : MskFsm, MskReach st → st.dValXorT = 1 ∨ st.dValXorT = -1 → ∀ b : Nat,
        ((modulateBitFsm b st).1 = 0 ∧
            ((modulateBitFsm b st).2.1 = 1 ∨ (modulateBitFsm b st).2.1 = -1)) ∨
          ((modulateBitFsm b st).2.1 = 0 ∧
            ((modulateBitFsm b st).1 = 1 ∨ (modulateBitFsm b st).1 = -1))) := by
  refine ⟨?_, ?_, ?_⟩
  · intro b
    by_cases hb : b = 0 <;> simp [modulateBitFsm, mskReset, hb]
  · intro st b
    simp only [modulateBitFsm]
    split_ifs <;> simp
  · intro st _ hT b
    rcases hT with hd | hd <;> by_cases hb : b = 0 <;> by_cases hbn : st.bN = 0 <;>
      simp [modulateBitFsm, hb, hbn, hd]

/-- Witness for the amended C10: the state reached by modulating one bit
from reset has `d_val_xor_T = 1`, and modulating bit 1 there activates
exactly one tone. -/
theorem msk_single_tone_witness :
    (MskReach (modulateBitFsm 0 mskReset).2.2 ∧
        (modulateBitFsm 0 mskReset).2.2.dValXorT = 1) ∧
      (((modulateBitFsm 1 (modulateBitFsm 0 mskReset).2.2).1 = 0 ∧
          ((modulateBitFsm 1 (modulateBitFsm 0 mskReset).2.2).2.1 = 1 ∨
            (modulateBitFsm 1 (modulateBitFsm 0 mskReset).2.2).2.1 = -1)) ∨
        ((modulateBitFsm 1 (modulateBitFsm 0 mskReset).2.2).2.1 = 0 ∧
          ((modulateBitFsm 1 (modulateBitFsm 0 mskReset).2.2).1 = 1 ∨
            (modulateBitFsm 1 (modulateBitFsm 0 mskReset).2.2).1 = -1))) :=
  ⟨⟨MskReach.step 0 mskReset MskReach.init, by decide⟩,
    msk_single_tone.2.2 (modulateBitFsm 0 mskReset).2.2
      (MskReach.step 0 mskReset MskReach.init) (Or.inl (by decide)) 1⟩

/-! ### Convolutional encoder, K = 7, rate 1/2 (opv-mod.cpp `ConvEncoder`,
`encode_frame`) -/

/-- `ConvEncoder::encode_bit`: form the 7-bit vector `(in << 6) | sr`, emit the
parities against the masks 0x4F (G1 = 171 octal) and 0x6D (G2 = 133 octal),
and shift the input bit into the 6-bit register.  Returns `(g1, g2, new sr)`. -/
def encode_bit (sr b : Nat) : Nat × Nat × Nat :=
  let state := (b <<< 6) ||| sr
  (parity (state &&& 0x4F), parity (state &&& 0x6D), ((sr <<< 1) ||| b) &&& 0x3F)

/-- The encoding loop of `encode_frame` over an already ordered bit sequence:
for each input bit emit `g1` then `g2` and carry the shift register along. -/
def convEncode (sr : Nat) : List Nat → List Nat
  | [] => []
  | b :: rest =>
    (encode_bit sr b).1 :: (encode_bit sr b).2.1 :: convEncode (encode_bit sr b).2.2 rest

/-- The MSB-to-LSB bits of one byte (`for bit_pos = 7 down to 0`). -/
def byteBitsMSB (b : Nat) : List Nat :=
  [(b >>> 7) &&& 1, (b >>> 6) &&& 1, (b >>> 5) &&& 1, (b >>> 4) &&& 1,
    (b >>> 3) &&& 1, (b >>> 2) &&& 1, (b >>> 1) &&& 1, b &&& 1]

/-- The bit consumption order of `encode_frame`: bytes from index 133 down to
index 0, and each byte MSB first. -/
def frameBits (bytes : List Nat) : List Nat :=
  bytes.reverse.flatMap byteBitsMSB

/-- `encode_frame` (opv-mod.cpp): randomize the payload, convolutionally
encode its bits in reversed byte order from register 0, and interleave the
2144 encoded bits. -/
def encode_frame (payload : List Nat) : List Nat :=
  interleave (convEncode 0 (frameBits (randomize payload))) 0

/-- The shift-register value after consuming a list of input bits, starting
from `sr` (`sr = ((sr << 1) | b) & 0x3F` per bit). -/
def srFrom (sr : Nat) : List Nat → Nat
  | [] => sr
  | b :: rest => srFrom (((sr <<< 1) ||| b) &&& 0x3F) rest

theorem convEncode_length (sr : Nat) (u : List Nat) :
    (convEncode sr u).length = 2 * u.length := by
  induction u generalizing sr with
  | nil => rfl
  | cons b rest ih => simp [convEncode, ih]; ring

theorem srFrom_append (sr : Nat) (l1 l2 : List Nat) :
    srFrom sr (l1 ++ l2) = srFrom (srFrom sr l1) l2 := by
  induction l1 generalizing sr with
  | nil => rfl
  | cons b rest ih => simp [srFrom, ih]

theorem convEncode_getD (u : List Nat) :
    ∀ (sr t : Nat), t < u.length →
      (convEncode sr u).getD (2 * t) 0 = (encode_bit (srFrom sr (u.take t)) (u.getD t 0)).1 ∧
        (convEncode sr u).getD (2 * t + 1) 0 =
          (encode_bit (srFrom sr (u.take t)) (u.getD t 0)).2.1 := by
  induction u with
  | nil => intro sr t ht; simp at ht
  | cons b rest ih =>
    intro sr t ht
    cases t with
    | zero => simp [convEncode, srFrom]
    | succ t =>
      have h2 : 2 * (t + 1) = (2 * t + 1) + 1 := by ring
      rw [h2]
      simp only [convEncode, List.getD_cons_succ, List.take_succ_cons, List.getD_cons_succ]
      have := ih (encode_bit sr b).2.2 t (by simpa using ht)
      simpa [srFrom, encode_bit] using this

theorem flatMap_byteBits_getD (bs : List Nat) :
    ∀ t, t < 8 * bs.length →
      (bs.flatMap byteBitsMSB).getD t 0 = (bs.getD (t / 8) 0 >>> (7 - t % 8)) &&& 1 := by
  induction bs with
  | nil => intro t ht; simp at ht
  | cons a rest ih =>
    intro t ht
    by_cases h8 : t < 8
    · interval_cases t <;> simp [byteBitsMSB]
    · have hsplit : (a :: rest).flatMap byteBitsMSB = byteBitsMSB a ++ rest.flatMap byteBitsMSB :=
        by simp
      have hlen : (byteBitsMSB a).length = 8 := by simp [byteBitsMSB]
      have hge : (byteBitsMSB a).length ≤ t := by omega
      rw [hsplit, List.getD_eq_getElem?_getD, List.getElem?_append_right hge, hlen,
        ← List.getD_eq_getElem?_getD]
      have htlt : t - 8 < 8 * rest.length := by
        simp only [List.length_cons] at ht; omega
      rw [ih (t - 8) htlt]
      have hd : t / 8 = (t - 8) / 8 + 1 := by omega
      have hm : t % 8 = (t - 8) % 8 := by omega
      rw [hd, hm, List.getD_cons_succ]

theorem reverse_getD (l : List Nat) (i : Nat) (h : i < l.length) :
    l.reverse.getD i 0 = l.getD (l.length - 1 - i) 0 := by
  rw [List.getD_eq_getElem?_getD, List.getD_eq_getElem?_getD, List.getElem?_reverse h]

theorem sum_map_len8 : ∀ (l : List Nat), (l.map (List.length ∘ byteBitsMSB)).sum = 8 * l.length := by
  intro l
  induction l with
  | nil => rfl
  | cons a rest ih => simp [ih, byteBitsMSB]; ring

theorem frameBits_length (bytes : List Nat) (h : bytes.length = 134) :
    (frameBits bytes).length = 1072 := by
  unfold frameBits
  rw [List.length_flatMap, sum_map_len8]
  simp [h]

theorem frameBits_getD (bytes : List Nat) (h : bytes.length = 134) (t : Nat) (ht : t < 1072) :
    (frameBits bytes).getD t 0 = (bytes.getD (133 - t / 8) 0 >>> (7 - t % 8)) &&& 1 := by
  unfold frameBits
  rw [flatMap_byteBits_getD bytes.reverse t (by simp [h]; omega)]
  rw [reverse_getD bytes (t / 8) (by rw [h]; omega)]
  rw [h]

/-- C2.  The convolutional encoder of `encode_frame`: from a per-frame shift
register starting at 0, the input bits are the bytes of the randomized frame
taken from index 133 down to 0, MSB to LSB (bit `t` is bit `7 - t mod 8` of
byte `133 - t / 8`); for input bit `b` with register `SR` it emits
`parity(((b<<6)|SR) & 0x4F)` at output position `2t` and
`parity(((b<<6)|SR) & 0x6D)` at position `2t+1` of the 2144-bit output, and
the register becomes `((SR<<1)|b) & 0x3F`. -/
theorem conv_encoder_contract (rand : List Nat) (h : rand.length = 134) :
    (convEncode 0 (frameBits rand)).length = 2144 ∧
      ∀ t, t < 1072 →
        (convEncode 0 (frameBits rand)).getD (2 * t) 0 =
            parity (((((rand.getD (133 - t / 8) 0 >>> (7 - t % 8)) &&& 1) <<< 6) |||
              srFrom 0 ((frameBits rand).take t)) &&& 0x4F) ∧
          (convEncode 0 (frameBits rand)).getD (2 * t + 1) 0 =
            parity (((((rand.getD (133 - t / 8) 0 >>> (7 - t % 8)) &&& 1) <<< 6) |||
              srFrom 0 ((frameBits rand).take t)) &&& 0x6D) ∧
          srFrom 0 ((frameBits rand).take (t + 1)) =
            ((srFrom 0 ((frameBits rand).take t) <<< 1) |||
              ((rand.getD (133 - t / 8) 0 >>> (7 - t % 8)) &&& 1)) &&& 0x3F := by
  have hlen : (frameBits rand).length = 1072 := frameBits_length rand h
  refine ⟨by rw [convEncode_length, hlen], fun t ht => ?_⟩
  have hbit := frameBits_getD rand h t ht
  have hchar := convEncode_getD (frameBits rand) 0 t (by rw [hlen]; exact ht)
  have htake : (frameBits rand).take (t + 1) =
      (frameBits rand).take t ++ [(frameBits rand).getD t 0] := by
    rw [List.take_succ, List.getElem?_eq_getElem (by rw [hlen]; exact ht)]
    simp [List.getD_eq_getElem?_getD, List.getElem?_eq_getElem (show t < (frameBits rand).length by rw [hlen]; exact ht)]
  refine ⟨?_, ?_, ?_⟩
  · rw [hchar.1, hbit]; rfl
  · rw [hchar.2, hbit]; rfl
  · rw [htake, srFrom_append, hbit]; rfl

/-- Witness for C2 at a concrete randomized frame. -/
theorem conv_encoder_contract_witness :
    (List.replicate 134 0x5A).length = 134 ∧
      (convEncode 0 (frameBits (List.replicate 134 0x5A))).length = 2144 :=
  ⟨by simp, (conv_encoder_contract (List.replicate 134 0x5A) (by simp)).1⟩

/-! ### Soft-decision Viterbi decoder (opv-demod-afc.cpp `ViterbiDecoder`) -/

/-- The sentinel used by `ViterbiDecoder::decode` for unreachable path
metrics (`0x7FFFFFFF`), compared against `0x7FFFFFF0` before extension. -/
def INF : Int := 0x7FFFFFFF

/-- Branch metric of the decoder for an expected bit `e` and received soft
quantum `q`: `q` when `e = 0` and `SOFT_MAX - q = 7 - q` when `e = 1`
(the C++ ternary `e ? SOFT_MAX - sg : sg`). -/
def branchMetric (e : Nat) (q : Int) : Int :=
  if e = 1 then 7 - q else q

/-- One trellis step of `ViterbiDecoder::decode`: for each destination state
`s`, predecessors `p0 = s/2` and `p1 = p0 + 32` with input bit `s % 2`,
expected outputs `parity(((in<<6)|p) & 0x4F)` and `parity(((in<<6)|p) & 0x6D)`,
guarded metric extension, and the `m0 <= m1` decision.  Returns the next
metric array and the decision array (false = predecessor `p0`). -/
def vStep (m : List Int) (sg1 sg2 : Int) : List Int × List Bool :=
  let entry := fun s =>
    let p0 := s / 2
    let p1 := p0 + 32
    let inp := s % 2
    let f0 := (inp <<< 6) ||| p0
    let f1 := (inp <<< 6) ||| p1
    let bm0 := branchMetric (parity (f0 &&& 0x4F)) sg1 + branchMetric (parity (f0 &&& 0x6D)) sg2
    let bm1 := branchMetric (parity (f1 &&& 0x4F)) sg1 + branchMetric (parity (f1 &&& 0x6D)) sg2
    let m0 := if m.getD p0 INF < 0x7FFFFFF0 then m.getD p0 INF + bm0 else INF
    let m1 := if m.getD p1 INF < 0x7FFFFFF0 then m.getD p1 INF + bm1 else INF
    if m0 ≤ m1 then (m0, false) else (m1, true)
  ((List.range 64).map (fun s => (entry s).1), (List.range 64).map (fun s => (entry s).2))

/-- The forward pass of `ViterbiDecoder::decode`: consume the soft input two
quanta per trellis step, returning the final metric array and the per-step
decision arrays in chronological order. -/
def vForward (m : List Int) : List Int → List Int × List (List Bool)
  | sg1 :: sg2 :: rest =>
    let st := vStep m sg1 sg2
    let r := vForward st.1 rest
    (r.1, st.2 :: r.2)
  | _ => (m, [])

/-- The final scan `for (s = 1; s < 64; ++s) if (metrics[s] < metrics[best])`:
the first state attaining the globally minimum path metric. -/
def vBest (m : List Int) : Nat :=
  (List.range 63).foldl
    (fun best i => if m.getD (i + 1) INF < m.getD best INF then i + 1 else best) 0

/-- The traceback loop, processing the decision arrays from the last trellis
step backwards: emit `s % 2` for step `t`, then move to predecessor `s/2` or
`s/2 + 32` according to the recorded decision.  The accumulator collects the
bits in chronological order; returns (bits, initial state). -/
def vTracebackGo : List (List Bool) → Nat → List Nat → List Nat × Nat
  | [], s, acc => (acc, s)
  | d :: rest, s, acc =>
    vTracebackGo rest (if d.getD s false then s / 2 + 32 else s / 2) (s % 2 :: acc)

/-- The initial path metric array of `ViterbiDecoder::decode`:
`metrics.fill(0x7FFFFFFF); metrics[0] = 0`. -/
def vInit : List Int :=
  (List.replicate 64 INF).set 0 0

/-- `ViterbiDecoder::decode`: metrics start at `INF` everywhere except state
0 at 0; after the forward pass, traceback starts from the state with the
globally minimum metric and the returned cost is that minimum metric. -/
def viterbiDecode (soft : List Int) : List Nat × Int :=
  let fw := vForward vInit soft
  let best := vBest fw.1
  ((vTracebackGo fw.2.reverse best []).1, fw.1.getD best INF)

/-- The bit packing of `FrameDecoder::decode`:
`packed[i] |= bits[1072 - 1 - i*8 - j] << j` for each of the 134 bytes. -/
def packBits (bits : List Nat) : List Nat :=
  (List.range 134).map (fun i =>
    (List.range 8).foldl (fun b j => b ||| ((bits.getD (1072 - 1 - i * 8 - j) 0) <<< j)) 0)

/-- The quantized soft value a noise-free symbol produces in
`FrameDecoder::decode`: with all soft magnitudes equal, the quantizer
`clamp(round((-soft/avg)*3.5 + 3.5), 0, 7)` sends a transmitted bit 0
(positive soft) to 0 and a transmitted bit 1 (negative soft) to `SOFT_MAX = 7`. -/
def idealSoft (b : Nat) : Int := 7 * b

/-! ### Zero-noise correctness of the 0x4F/0x6D Viterbi decoder -/

/-- The candidate metric for destination-state computation: the guarded
extension `metrics[p] + bm` (or `INF`) of predecessor `p` with input `inp`. -/
def vCand (m : List Int) (sg1 sg2 : Int) (p inp : Nat) : Int :=
  if m.getD p INF < 0x7FFFFFF0 then
    m.getD p INF + (branchMetric (parity (((inp <<< 6) ||| p) &&& 0x4F)) sg1 +
      branchMetric (parity (((inp <<< 6) ||| p) &&& 0x6D)) sg2)
  else INF

theorem getD_map_range {α : Type} (f : Nat → α) (d : α) (n s : Nat) (h : s < n) :
    ((List.range n).map f).getD s d = f s := by
  rw [List.getD_eq_getElem?_getD, List.getElem?_eq_getElem (by simpa using h)]
  simp

theorem vStep_fst_getD (m : List Int) (sg1 sg2 : Int) (s : Nat) (h : s < 64) :
    (vStep m sg1 sg2).1.getD s INF =
      if vCand m sg1 sg2 (s / 2) (s % 2) ≤ vCand m sg1 sg2 (s / 2 + 32) (s % 2) then
        vCand m sg1 sg2 (s / 2) (s % 2)
      else vCand m sg1 sg2 (s / 2 + 32) (s % 2) := by
  simp only [vStep]
  rw [getD_map_range _ _ 64 s h]
  simp only [vCand]
  split_ifs <;> rfl

theorem vStep_snd_getD (m : List Int) (sg1 sg2 : Int) (s : Nat) (h : s < 64) :
    (vStep m sg1 sg2).2.getD s false =
      if vCand m sg1 sg2 (s / 2) (s % 2) ≤ vCand m sg1 sg2 (s / 2 + 32) (s % 2) then false
      else true := by
  simp only [vStep]
  rw [getD_map_range _ _ 64 s h]
  simp only [vCand]
  split_ifs <;> rfl

theorem vStep_fst_length (m : List Int) (sg1 sg2 : Int) :
    (vStep m sg1 sg2).1.length = 64 := by
  simp [vStep]

theorem getD_replicate_self {α : Type} (n i : Nat) (a : α) :
    (List.replicate n a).getD i a = a := by
  rcases Nat.lt_or_ge i n with h | h
  · rw [List.getD_eq_getElem?_getD, List.getElem?_replicate, if_pos h]; rfl
  · rw [List.getD_eq_getElem?_getD, List.getElem?_eq_none (by simpa using h)]; rfl

theorem trans_val : ∀ sr, sr < 64 → ∀ b, b < 2 →
    ((sr <<< 1) ||| b) &&& 0x3F = (2 * sr + b) % 64 := by decide

theorem trans_lt64 : ∀ sr, sr < 64 → ∀ b, b < 2 → ((sr <<< 1) ||| b) &&& 0x3F < 64 := by decide

theorem trans_mod2 : ∀ sr, sr < 64 → ∀ b, b < 2 → (((sr <<< 1) ||| b) &&& 0x3F) % 2 = b := by
  decide

theorem trans_div2 : ∀ sr, sr < 64 → ∀ b, b < 2 →
    (((sr <<< 1) ||| b) &&& 0x3F) / 2 = sr % 32 := by decide

theorem parity_g1_inj : ∀ s, s < 64 → ∀ a, a < 2 → ∀ b, b < 2 →
    parity (((a <<< 6) ||| s) &&& 0x4F) = parity (((b <<< 6) ||| s) &&& 0x4F) → a = b := by
  decide

theorem bm_ideal (e g : Nat) (he : e < 2) (hg : g < 2) :
    branchMetric e (idealSoft g) = if e = g then 0 else 7 := by
  interval_cases e <;> interval_cases g <;> simp [branchMetric, idealSoft]

/-- The zero-noise soft pair received for the step encoded from register `σ`
with input bit `b` never rewards a mismatching branch: each branch metric
component is 0 on a match and 7 on a mismatch. -/
theorem bm_pair_nonneg (σ b p inp : Nat) (hσ : σ < 64) (hb : b < 2) :
    0 ≤ branchMetric (parity (((inp <<< 6) ||| p) &&& 0x4F)) (idealSoft (encode_bit σ b).1) +
        branchMetric (parity (((inp <<< 6) ||| p) &&& 0x6D)) (idealSoft (encode_bit σ b).2.1) := by
  simp only [encode_bit]
  rw [bm_ideal _ _ (parity_lt_two _) (parity_lt_two _),
    bm_ideal _ _ (parity_lt_two _) (parity_lt_two _)]
  split <;> split <;> norm_num

theorem encode_bit_fst (σ b : Nat) :
    (encode_bit σ b).1 = parity (((b <<< 6) ||| σ) &&& 0x4F) := rfl

theorem encode_bit_snd (σ b : Nat) :
    (encode_bit σ b).2.1 = parity (((b <<< 6) ||| σ) &&& 0x6D) := rfl

theorem encode_bit_state (σ b : Nat) :
    (encode_bit σ b).2.2 = ((σ <<< 1) ||| b) &&& 0x3F := rfl

/-- Validity of an input bit stream: every entry is 0 or 1. -/
def bitsValid (u : List Nat) : Prop := ∀ b ∈ u, b < 2

/-- The invariant carried through the forward pass when the received soft
stream is the zero-noise image of the encoder run whose current register is
`σ`: the metric array has 64 entries, the true state has metric 0, every
entry is the `INF` sentinel or nonnegative, and 0 is attained only at the
true state. -/
def goodMetrics (m : List Int) (σ : Nat) : Prop :=
  m.length = 64 ∧ m.getD σ INF = 0 ∧
    (∀ s, s < 64 → m.getD s INF = INF ∨ 0 ≤ m.getD s INF) ∧
    (∀ s, s < 64 → m.getD s INF = 0 → s = σ)

theorem INF_not_lt_guard : ¬ (INF < (0x7FFFFFF0 : Int)) := by decide

theorem INF_pos : (0 : Int) < INF := by decide

theorem getD_eq_INF_of_ge (m : List Int) (p : Nat) (hlen : m.length = 64) (hp : 64 ≤ p) :
    m.getD p INF = INF := by
  rw [List.getD_eq_getElem?_getD, List.getElem?_eq_none (by rw [hlen]; omega)]
  rfl

theorem vCand_nonneg (m : List Int) (σ : Nat) (hm : goodMetrics m σ) (b : Nat)
    (hσ : σ < 64) (hb : b < 2) (p inp : Nat) :
    vCand m (idealSoft (encode_bit σ b).1) (idealSoft (encode_bit σ b).2.1) p inp = INF ∨
      0 ≤ vCand m (idealSoft (encode_bit σ b).1) (idealSoft (encode_bit σ b).2.1) p inp := by
  unfold vCand
  split
  · rename_i hguard
    have hmp : 0 ≤ m.getD p INF := by
      rcases Nat.lt_or_ge p 64 with hp | hp
      · rcases hm.2.2.1 p hp with h | h
        · rw [h] at hguard; exact absurd hguard INF_not_lt_guard
        · exact h
      · rw [getD_eq_INF_of_ge m p hm.1 hp] at hguard
        exact absurd hguard INF_not_lt_guard
    have := bm_pair_nonneg σ b p inp hσ hb
    omega
  · exact Or.inl rfl

theorem vCand_true (m : List Int) (σ : Nat) (hm : goodMetrics m σ) (b : Nat)
    (hσ : σ < 64) (hb : b < 2) :
    vCand m (idealSoft (encode_bit σ b).1) (idealSoft (encode_bit σ b).2.1) σ b = 0 := by
  unfold vCand
  rw [hm.2.1]
  rw [if_pos (by decide)]
  rw [encode_bit_fst, encode_bit_snd,
    bm_ideal _ _ (parity_lt_two _) (parity_lt_two _),
    bm_ideal _ _ (parity_lt_two _) (parity_lt_two _)]
  simp

theorem vCand_zero (m : List Int) (σ : Nat) (hm : goodMetrics m σ) (b : Nat)
    (hσ : σ < 64) (hb : b < 2) (p inp : Nat) (hp : p < 64) (hinp : inp < 2)
    (h0 : vCand m (idealSoft (encode_bit σ b).1) (idealSoft (encode_bit σ b).2.1) p inp = 0) :
    p = σ ∧ inp = b := by
  unfold vCand at h0
  split at h0
  · rename_i hguard
    have hmp : 0 ≤ m.getD p INF := by
      rcases hm.2.2.1 p hp with h | h
      · rw [h] at hguard; exact absurd hguard INF_not_lt_guard
      · exact h
    rw [encode_bit_fst, encode_bit_snd,
      bm_ideal _ _ (parity_lt_two _) (parity_lt_two _),
      bm_ideal _ _ (parity_lt_two _) (parity_lt_two _)] at h0
    have hkey : m.getD p INF = 0 ∧
        parity (((inp <<< 6) ||| p) &&& 0x4F) = parity (((b <<< 6) ||| σ) &&& 0x4F) := by
      constructor
      · split at h0 <;> split at h0 <;> omega
      · by_contra hne
        rw [if_neg hne] at h0
        split at h0 <;> omega
    have hpσ : p = σ := hm.2.2.2 p hp hkey.1
    subst hpσ
    exact ⟨rfl, parity_g1_inj p hp inp hinp b hb hkey.2⟩
  · exact absurd h0 (by decide)

theorem vStep_good (m : List Int) (σ : Nat) (hm : goodMetrics m σ) (b : Nat)
    (hσ : σ < 64) (hb : b < 2) :
    goodMetrics
      (vStep m (idealSoft (encode_bit σ b).1) (idealSoft (encode_bit σ b).2.1)).1
      (((σ <<< 1) ||| b) &&& 0x3F) := by
  set sg1 := idealSoft (encode_bit σ b).1
  set sg2 := idealSoft (encode_bit σ b).2.1
  have hns : ((σ <<< 1) ||| b) &&& 0x3F = (2 * σ + b) % 64 := trans_val σ hσ b hb
  have hnslt : ((σ <<< 1) ||| b) &&& 0x3F < 64 := trans_lt64 σ hσ b hb
  have hnsd : (((σ <<< 1) ||| b) &&& 0x3F) / 2 = σ % 32 := trans_div2 σ hσ b hb
  have hnsm : (((σ <<< 1) ||| b) &&& 0x3F) % 2 = b := trans_mod2 σ hσ b hb
  refine ⟨vStep_fst_length m sg1 sg2, ?_, ?_, ?_⟩
  · -- the true next state has metric 0
    rw [vStep_fst_getD m sg1 sg2 _ hnslt, hnsd, hnsm]
    rcases Nat.lt_or_ge σ 32 with h32 | h32
    · have hm32 : σ % 32 = σ := Nat.mod_eq_of_lt h32
      rw [hm32]
      rw [vCand_true m σ hm b hσ hb]
      rcases vCand_nonneg m σ hm b hσ hb (σ + 32) b with h | h
      · rw [if_pos (by rw [h]; exact le_of_lt INF_pos)]
      · rw [if_pos h]
    · have hm32 : σ % 32 + 32 = σ := by omega
      rw [hm32]
      rw [vCand_true m σ hm b hσ hb]
      rcases vCand_nonneg m σ hm b hσ hb (σ % 32) b with h | h
      · rw [if_neg (by rw [h]; exact not_le.mpr INF_pos)]
      · rcases eq_or_lt_of_le h with h0 | h0
        · rw [if_pos (le_of_eq h0.symm), ← h0]
        · rw [if_neg (not_le.mpr h0)]
  · -- every entry is INF or nonnegative
    intro s hs
    rw [vStep_fst_getD m sg1 sg2 s hs]
    rcases vCand_nonneg m σ hm b hσ hb (s / 2) (s % 2) with h0 | h0 <;>
      rcases vCand_nonneg m σ hm b hσ hb (s / 2 + 32) (s % 2) with h1 | h1 <;>
        split <;> simp [h0, h1]
  · -- metric 0 only at the true next state
    intro s hs hz
    rw [vStep_fst_getD m sg1 sg2 s hs] at hz
    have hsd : s / 2 < 64 := by omega
    have hsd32 : s / 2 + 32 < 64 := by omega
    have hsm : s % 2 < 2 := Nat.mod_lt _ (by norm_num)
    have hcases : vCand m sg1 sg2 (s / 2) (s % 2) = 0 ∨
        vCand m sg1 sg2 (s / 2 + 32) (s % 2) = 0 := by
      split at hz
      · exact Or.inl hz
      · exact Or.inr hz
    rcases hcases with h0 | h0
    · obtain ⟨hpσ, hib⟩ := vCand_zero m σ hm b hσ hb (s / 2) (s % 2) hsd hsm h0
      rw [hns]
      omega
    · obtain ⟨hpσ, hib⟩ := vCand_zero m σ hm b hσ hb (s / 2 + 32) (s % 2) hsd32 hsm h0
      rw [hns]
      omega

/-- The decision recorded at the true next state selects the true
predecessor: tracing one step back from `((σ<<1)|b) & 0x3F` returns `σ`. -/
theorem vStep_pred (m : List Int) (σ : Nat) (hm : goodMetrics m σ) (b : Nat)
    (hσ : σ < 64) (hb : b < 2) :
    (if (vStep m (idealSoft (encode_bit σ b).1) (idealSoft (encode_bit σ b).2.1)).2.getD
          (((σ <<< 1) ||| b) &&& 0x3F) false then
        (((σ <<< 1) ||| b) &&& 0x3F) / 2 + 32
      else (((σ <<< 1) ||| b) &&& 0x3F) / 2) = σ := by
  set sg1 := idealSoft (encode_bit σ b).1
  set sg2 := idealSoft (encode_bit σ b).2.1
  have hnslt : ((σ <<< 1) ||| b) &&& 0x3F < 64 := trans_lt64 σ hσ b hb
  have hnsd : (((σ <<< 1) ||| b) &&& 0x3F) / 2 = σ % 32 := trans_div2 σ hσ b hb
  have hnsm : (((σ <<< 1) ||| b) &&& 0x3F) % 2 = b := trans_mod2 σ hσ b hb
  rw [vStep_snd_getD m sg1 sg2 _ hnslt, hnsd, hnsm]
  rcases Nat.lt_or_ge σ 32 with h32 | h32
  · have hm32 : σ % 32 = σ := Nat.mod_eq_of_lt h32
    rw [hm32, vCand_true m σ hm b hσ hb]
    have hle : (0 : Int) ≤ vCand m sg1 sg2 (σ + 32) b := by
      rcases vCand_nonneg m σ hm b hσ hb (σ + 32) b with h | h
      · rw [h]; exact le_of_lt INF_pos
      · exact h
    rw [if_pos hle]
    simp
  · have hm32 : σ % 32 + 32 = σ := by omega
    rw [hm32, vCand_true m σ hm b hσ hb]
    have hstrict : ¬ vCand m sg1 sg2 (σ % 32) b ≤ 0 := by
      intro hle
      rcases vCand_nonneg m σ hm b hσ hb (σ % 32) b with h | h
      · rw [h] at hle; exact absurd hle (not_le.mpr INF_pos)
      · have h0 : vCand m sg1 sg2 (σ % 32) b = 0 := le_antisymm hle h
        obtain ⟨hpσ, _⟩ := vCand_zero m σ hm b hσ hb (σ % 32) b (by omega)
          (by omega) h0
        omega
    rw [if_neg hstrict]
    simp

theorem srFrom_lt (u : List Nat) : ∀ σ, σ < 64 → srFrom σ u < 64 := by
  induction u with
  | nil => intro σ h; exact h
  | cons b rest ih =>
    intro σ h
    exact ih _ (Nat.lt_succ_of_le (Nat.and_le_right))

theorem vTracebackGo_append (l1 l2 : List (List Bool)) :
    ∀ (s : Nat) (acc : List Nat),
      vTracebackGo (l1 ++ l2) s acc =
        vTracebackGo l2 (vTracebackGo l1 s acc).2 (vTracebackGo l1 s acc).1 := by
  induction l1 with
  | nil => intro s acc; rfl
  | cons d rest ih =>
    intro s acc
    simp only [List.cons_append, vTracebackGo]
    exact ih _ _

/-- Main induction for the zero-noise forward pass: starting from a metric
array that is `good` for the encoder register `σ`, consuming the ideal soft
image of `convEncode σ u` keeps the array good for the final register, and
the traceback from the final register recovers `u` and lands back on `σ`. -/
theorem vforward_correct (u : List Nat) :
    bitsValid u → ∀ (σ : Nat), σ < 64 → ∀ (m : List Int), goodMetrics m σ →
      goodMetrics (vForward m ((convEncode σ u).map idealSoft)).1 (srFrom σ u) ∧
        ∀ (acc : List Nat),
          vTracebackGo (vForward m ((convEncode σ u).map idealSoft)).2.reverse
              (srFrom σ u) acc =
            (u ++ acc, σ) := by
  induction u with
  | nil =>
    intro _ σ _ m hm
    exact ⟨hm, fun acc => rfl⟩
  | cons b rest ih =>
    intro hval σ hσ m hm
    have hb : b < 2 := hval b (List.mem_cons_self b rest)
    have hrest : bitsValid rest := fun x hx => hval x (List.mem_cons_of_mem b hx)
    have hunf : convEncode σ (b :: rest) =
        (encode_bit σ b).1 :: (encode_bit σ b).2.1 :: convEncode (encode_bit σ b).2.2 rest :=
      rfl
    rw [hunf]
    simp only [List.map_cons]
    have hstep := vStep_good m σ hm b hσ hb
    have hσ2 : ((σ <<< 1) ||| b) &&& 0x3F < 64 := trans_lt64 σ hσ b hb
    have hihx := ih hrest (((σ <<< 1) ||| b) &&& 0x3F) hσ2
      (vStep m (idealSoft (encode_bit σ b).1) (idealSoft (encode_bit σ b).2.1)).1 hstep
    have hsr : srFrom σ (b :: rest) = srFrom (((σ <<< 1) ||| b) &&& 0x3F) rest := rfl
    have hfw : vForward m
        (idealSoft (encode_bit σ b).1 :: idealSoft (encode_bit σ b).2.1 ::
          (convEncode (encode_bit σ b).2.2 rest).map idealSoft) =
        ((vForward
            (vStep m (idealSoft (encode_bit σ b).1) (idealSoft (encode_bit σ b).2.1)).1
            ((convEncode (encode_bit σ b).2.2 rest).map idealSoft)).1,
          (vStep m (idealSoft (encode_bit σ b).1) (idealSoft (encode_bit σ b).2.1)).2 ::
            (vForward
              (vStep m (idealSoft (encode_bit σ b).1) (idealSoft (encode_bit σ b).2.1)).1
              ((convEncode (encode_bit σ b).2.2 rest).map idealSoft)).2) := rfl
    rw [hfw, hsr]
    rw [encode_bit_state σ b]
    refine ⟨hihx.1, fun acc => ?_⟩
    simp only [List.reverse_cons]
    rw [vTracebackGo_append]
    rw [hihx.2 acc]
    simp only [vTracebackGo]
    rw [vStep_pred m σ hm b hσ hb]
    rw [trans_mod2 σ hσ b hb]
    rfl

theorem vBest_bound_le (m : List Int) :
    ∀ (k : Nat), k ≤ 63 →
      (List.range k).foldl
          (fun best i => if m.getD (i + 1) INF < m.getD best INF then i + 1 else best) 0 ≤ k ∧
        ∀ j, j ≤ k →
          m.getD ((List.range k).foldl
            (fun best i => if m.getD (i + 1) INF < m.getD best INF then i + 1 else best) 0) INF ≤
            m.getD j INF := by
  intro k
  induction k with
  | zero =>
    intro _
    refine ⟨le_refl 0, fun j hj => ?_⟩
    rw [Nat.le_zero.mp hj]
    simp
  | succ k ih =>
    intro hk
    obtain ⟨ihb, ihle⟩ := ih (by omega)
    rw [List.range_succ, List.foldl_append, List.foldl_cons, List.foldl_nil]
    constructor
    · split <;> omega
    · intro j hj
      split
      · rename_i hlt
        rcases Nat.lt_or_ge j (k + 1) with hj2 | hj2
        · exact le_of_lt (lt_of_lt_of_le hlt (ihle j (by omega)))
        · have : j = k + 1 := by omega
          rw [this]
      · rename_i hge
        rcases Nat.lt_or_ge j (k + 1) with hj2 | hj2
        · exact ihle j (by omega)
        · have : j = k + 1 := by omega
          rw [this]
          exact le_of_not_lt hge

theorem vBest_spec (m : List Int) :
    vBest m < 64 ∧ ∀ s, s < 64 → m.getD (vBest m) INF ≤ m.getD s INF := by
  obtain ⟨hb, hle⟩ := vBest_bound_le m 63 (le_refl 63)
  exact ⟨by unfold vBest; omega, fun s hs => hle s (by omega)⟩

theorem goodMetrics_vInit : goodMetrics vInit 0 := by
  refine ⟨by simp [vInit], ?_, ?_, ?_⟩
  · rw [vInit, getD_set_self _ _ _ 0 (by simp)]
  · intro s hs
    rcases Nat.eq_zero_or_pos s with h0 | h0
    · right; rw [h0, vInit, getD_set_self _ _ _ 0 (by simp)]
    · left
      rw [vInit, getD_set_ne _ _ _ 0 s (by omega), getD_replicate_self]
  · intro s hs hz
    by_contra hne
    rw [vInit, getD_set_ne _ _ _ 0 s (by omega), getD_replicate_self] at hz
    exact absurd hz (by decide)

/-- Zero-noise correctness of the 0x4F/0x6D soft-decision Viterbi decoder:
for every valid 1072-long input bit stream — in fact for any valid input bit
stream — decoding the ideal soft image of its convolutional encoding returns
exactly the input bits with cost 0. -/
theorem viterbi_zero_noise (u : List Nat) (hval : bitsValid u) :
    viterbiDecode ((convEncode 0 u).map idealSoft) = (u, 0) := by
  obtain ⟨hgood, htb⟩ := vforward_correct u hval 0 (by norm_num) vInit goodMetrics_vInit
  have hσf : srFrom 0 u < 64 := srFrom_lt u 0 (by norm_num)
  obtain ⟨hblt, hble⟩ := vBest_spec (vForward vInit ((convEncode 0 u).map idealSoft)).1
  set mf := (vForward vInit ((convEncode 0 u).map idealSoft)).1 with hmf
  have hb0 : mf.getD (vBest mf) INF = 0 := by
    have h1 : mf.getD (vBest mf) INF ≤ 0 := by
      have := hble (srFrom 0 u) hσf
      rw [hgood.2.1] at this
      exact this
    rcases hgood.2.2.1 (vBest mf) hblt with h | h
    · rw [h] at h1
      exact absurd h1 (not_le.mpr INF_pos)
    · exact le_antisymm h1 h
  have hbest : vBest mf = srFrom 0 u := hgood.2.2.2 (vBest mf) hblt hb0
  show ((vTracebackGo _ (vBest mf) []).1, mf.getD (vBest mf) INF) = (u, 0)
  rw [hbest, hgood.2.1, htb []]
  simp

theorem frameBits_valid (bytes : List Nat) : bitsValid (frameBits bytes) := by
  intro x hx
  unfold frameBits at hx
  rw [List.mem_flatMap] at hx
  obtain ⟨a, _, hxa⟩ := hx
  simp only [byteBitsMSB, List.mem_cons, List.not_mem_nil, or_false] at hxa
  rcases hxa with h | h | h | h | h | h | h | h <;>
    (subst h; exact Nat.lt_succ_of_le Nat.and_le_right)

theorem getElem_eq_getD {α : Type} (l : List α) (i : Nat) (d : α) (h : i < l.length) :
    l[i] = l.getD i d := by
  rw [List.getD_eq_getElem?_getD, List.getElem?_eq_getElem h]
  rfl

theorem getD_map_lt {α β : Type} (f : α → β) (l : List α) (j : Nat) (d : β) (d0 : α)
    (h : j < l.length) :
    (l.map f).getD j d = f (l.getD j d0) := by
  rw [List.getD_eq_getElem?_getD, List.getD_eq_getElem?_getD, List.getElem?_map,
    List.getElem?_eq_getElem h]
  rfl

theorem deinterleave_length {α : Type} (xs : List α) (dflt : α) :
    (deinterleave xs dflt).length = 2144 := by
  unfold deinterleave
  rw [List.length_map, List.length_range]

theorem deinterleave_getD {α : Type} (xs : List α) (dflt : α) (i : Nat) (hi : i < 2144) :
    (deinterleave xs dflt).getD i dflt = xs.getD (interleaveAddr i) dflt := by
  unfold deinterleave
  rw [getD_map_range _ _ 2144 i hi]

theorem deinterleave_map_ideal (e : List Nat) (he : e.length = 2144) :
    deinterleave ((interleave e 0).map idealSoft) 0 = e.map idealSoft := by
  apply List.ext_getElem
  · rw [deinterleave_length, List.length_map, he]
  · intro i h1 h2
    have hi : i < 2144 := by rw [deinterleave_length] at h1; exact h1
    have haddr : interleaveAddr i < 2144 := interleaveAddr_lt i hi
    have hlen1 : (interleave e 0).length = 2144 := interleave_length e 0
    rw [getElem_eq_getD _ i (0 : Int) h1, getElem_eq_getD _ i (0 : Int) h2]
    rw [deinterleave_getD _ _ i hi]
    rw [getD_map_lt idealSoft (interleave e 0) (interleaveAddr i) 0 0 (by rw [hlen1]; exact haddr)]
    rw [interleave_getD e 0 _ haddr, interleaveAddrInv_addr i hi]
    rw [getD_map_lt idealSoft e i 0 0 (by rw [he]; exact hi)]

theorem byte_reassemble : ∀ x, x < 256 →
    (List.range 8).foldl (fun b j => b ||| (((x >>> j) &&& 1) <<< j)) 0 = x := by decide

theorem packBits_frameBits (bytes : List Nat) (hl : bytes.length = 134)
    (hb : ∀ i, i < 134 → bytes.getD i 0 < 256) :
    packBits (frameBits bytes) = bytes := by
  apply List.ext_getElem
  · simp [packBits, hl]
  · intro i h1 h2
    have hi : i < 134 := by simpa [packBits] using h1
    have hL : (packBits (frameBits bytes))[i] =
        (List.range 8).foldl
          (fun b j => b ||| (((frameBits bytes).getD (1072 - 1 - i * 8 - j) 0) <<< j)) 0 := by
      simp [packBits]
    rw [hL]
    have hfold : (List.range 8).foldl
        (fun b j => b ||| (((frameBits bytes).getD (1072 - 1 - i * 8 - j) 0) <<< j)) 0 =
        (List.range 8).foldl (fun b j => b ||| (((bytes.getD i 0 >>> j) &&& 1) <<< j)) 0 := by
      apply List.foldl_ext
      intro acc j hj
      have hj8 : j < 8 := by simpa using hj
      have ht : 1072 - 1 - i * 8 - j = 8 * (133 - i) + (7 - j) := by omega
      rw [ht, frameBits_getD bytes hl _ (by omega)]
      have hdiv : (8 * (133 - i) + (7 - j)) / 8 = 133 - i := by omega
      have hmod : (8 * (133 - i) + (7 - j)) % 8 = 7 - j := by omega
      rw [hdiv, hmod]
      have h133 : 133 - (133 - i) = i := by omega
      have h77 : 7 - (7 - j) = j := by omega
      rw [h133, h77]
    rw [hfold, byte_reassemble (bytes.getD i 0) (hb i hi)]
    rw [List.getD_eq_getElem?_getD, List.getElem?_eq_getElem h2]
    rfl

theorem lfsrByte_bounds : ∀ s, s < 256 → (lfsrByte s).1 < 256 ∧ (lfsrByte s).2 < 256 := by
  decide

theorem lfsrBytes_mem_lt (n : Nat) : ∀ s, s < 256 → ∀ b ∈ lfsrBytes n s, b < 256 := by
  induction n with
  | zero => intro s _ b hb; simp [lfsrBytes] at hb
  | succ n ih =>
    intro s hs b hb
    rcases List.mem_cons.mp hb with h | h
    · rw [h]; exact (lfsrByte_bounds s hs).1
    · exact ih (lfsrByte s).2 (lfsrByte_bounds s hs).2 b h

theorem randomize_getD_lt (payload : List Nat) (h1 : payload.length = 134)
    (h2 : ∀ b ∈ payload, b < 256) :
    ∀ i, i < 134 → (randomize payload).getD i 0 < 256 := by
  intro i hi
  have hlen : (randomize payload).length = 134 := by rw [randomize_length, h1]
  have hir : i < (randomize payload).length := by rw [hlen]; exact hi
  have hip : i < payload.length := by rw [h1]; exact hi
  have hiw : i < (lfsrBytes payload.length 0xFF).length := by
    rw [lfsrBytes_length, h1]; exact hi
  rw [List.getD_eq_getElem?_getD, List.getElem?_eq_getElem hir]
  show (randomize payload)[i] < 256
  unfold randomize
  rw [List.getElem_zipWith]
  have hp : payload[i] < 256 :=
    h2 _ (List.getElem_mem _)
  have hw : (lfsrBytes payload.length 0xFF)[i] < 256 :=
    lfsrBytes_mem_lt payload.length 0xFF (by norm_num) _ (List.getElem_mem _)
  calc payload[i] ^^^ (lfsrBytes payload.length 0xFF)[i] < 2 ^ 8 :=
        Nat.xor_lt_two_pow (by simpa using hp) (by simpa using hw)
    _ = 256 := by norm_num

/-- C1.  Bit-perfect zero-noise loopback: for every 134-byte payload, feeding
it through randomize, the K=7 rate-1/2 convolutional encoder, the 67x32
interleaver, the exact-inverse deinterleaver, the soft-decision Viterbi
decoder (with the ideal zero-noise soft quanta) and derandomize returns the
original payload byte for byte, and the Viterbi cost reported for the frame
is 0. -/
theorem loopback_zero_noise (payload : List Nat) (h1 : payload.length = 134)
    (h2 : ∀ b ∈ payload, b < 256) :
    derandomize (packBits ((viterbiDecode (deinterleave
          ((interleave (convEncode 0 (frameBits (randomize payload))) 0).map idealSoft)
          0)).1)) = payload ∧
      (viterbiDecode (deinterleave
          ((interleave (convEncode 0 (frameBits (randomize payload))) 0).map idealSoft)
          0)).2 = 0 := by
  have hrlen : (randomize payload).length = 134 := by rw [randomize_length, h1]
  have helen : (convEncode 0 (frameBits (randomize payload))).length = 2144 := by
    rw [convEncode_length, frameBits_length _ hrlen]
  rw [deinterleave_map_ideal _ helen, viterbi_zero_noise _ (frameBits_valid _)]
  constructor
  · show derandomize (packBits (frameBits (randomize payload))) = payload
    rw [packBits_frameBits _ hrlen (randomize_getD_lt payload h1 h2)]
    exact derandomize_randomize payload h1
  · rfl

/-- Witness for C1 at a concrete 134-byte payload. -/
theorem loopback_zero_noise_witness :
    ((List.replicate 134 0x57).length = 134 ∧ ∀ b ∈ List.replicate 134 0x57, b < 256) ∧
      (derandomize (packBits ((viterbiDecode (deinterleave
            ((interleave (convEncode 0 (frameBits (randomize (List.replicate 134 0x57)))) 0).map
              idealSoft) 0)).1)) = List.replicate 134 0x57 ∧
        (viterbiDecode (deinterleave
            ((interleave (convEncode 0 (frameBits (randomize (List.replicate 134 0x57)))) 0).map
              idealSoft) 0)).2 = 0) :=
  ⟨⟨by simp, fun b hb => by rw [List.eq_of_mem_replicate hb]; norm_num⟩,
    loopback_zero_noise _ (by simp) (fun b hb => by rw [List.eq_of_mem_replicate hb]; norm_num)⟩

/-- Specification-level description of the traceback: per decision array
(latest step first), emit `s % 2` for the current state and continue from the
selected predecessor; bits come out in chronological order. -/
def tbSpec : List (List Bool) → Nat → List Nat
  | [], _ => []
  | d :: rest, s => tbSpec rest (if d.getD s false then s / 2 + 32 else s / 2) ++ [s % 2]

theorem vTracebackGo_eq_tbSpec :
    ∀ (ds : List (List Bool)) (s : Nat) (acc : List Nat),
      (vTracebackGo ds s acc).1 = tbSpec ds s ++ acc := by
  intro ds
  induction ds with
  | nil => intro s acc; rfl
  | cons d rest ih =>
    intro s acc
    show (vTracebackGo rest _ (s % 2 :: acc)).1 = (tbSpec rest _ ++ [s % 2]) ++ acc
    rw [ih]
    simp

theorem tbSpec_length : ∀ (ds : List (List Bool)) (s : Nat), (tbSpec ds s).length = ds.length := by
  intro ds
  induction ds with
  | nil => intro s; rfl
  | cons d rest ih => intro s; simp [tbSpec, ih]

theorem two_step_induction {P : List Int → Prop} (h0 : P []) (h1 : ∀ a, P [a])
    (h2 : ∀ a b l, P l → P (a :: b :: l)) : ∀ l, P l := by
  have key : ∀ (n : Nat) (l : List Int), l.length ≤ n → P l := by
    intro n
    induction n with
    | zero =>
      intro l hl
      rw [List.length_eq_zero.mp (Nat.le_zero.mp hl)]
      exact h0
    | succ n ih =>
      intro l hl
      match l with
      | [] => exact h0
      | [a] => exact h1 a
      | a :: b :: rest =>
        exact h2 a b rest (ih rest (by simp at hl; omega))
  exact fun l => key l.length l (le_refl _)

theorem vForward_decs_length :
    ∀ (soft : List Int), ∀ (m : List Int), (vForward m soft).2.length = soft.length / 2 := by
  refine two_step_induction (by intro m; rfl)
    (by intro a m; show ([] : List (List Bool)).length = [a].length / 2; simp) ?_
  intro a b l ih m
  show ((vForward (vStep m a b).1 l).2.length + 1 = (l.length + 1 + 1) / 2)
  rw [ih]
  omega

/-- C4.  The contract of `ViterbiDecoder::decode`: path metrics start with
state 0 at 0 and the 63 other states at the `INF` sentinel standing for +∞;
the branch metric is `q` for expected bit 0 and `SOFT_MAX - q = 7 - q` for
expected bit 1, the per-step cost of a transition being the sum of its G1 and
G2 branch metrics (inside `vCand`); each step assigns every state the minimum
of its two guarded predecessor candidates; after the 1072 steps the traceback
starts from the state whose final path metric is the global minimum — not
from state 0 — the returned cost is that minimum metric, and the 1072 decoded
bits are emitted in chronological order. -/
theorem viterbi_decoder_contract (soft : List Int) (hlen : soft.length = 2144) :
    (vInit.getD 0 INF = 0 ∧ ∀ s, 0 < s → s < 64 → vInit.getD s INF = INF) ∧
      (∀ q : Int, branchMetric 0 q = q ∧ branchMetric 1 q = 7 - q) ∧
      (∀ (m : List Int) (sg1 sg2 : Int) (s : Nat), s < 64 →
        (vStep m sg1 sg2).1.getD s INF =
          min (vCand m sg1 sg2 (s / 2) (s % 2)) (vCand m sg1 sg2 (s / 2 + 32) (s % 2))) ∧
      ((viterbiDecode soft).2 =
          (vForward vInit soft).1.getD (vBest (vForward vInit soft).1) INF ∧
        ∀ s, s < 64 →
          (vForward vInit soft).1.getD (vBest (vForward vInit soft).1) INF ≤
            (vForward vInit soft).1.getD s INF) ∧
      (viterbiDecode soft).1 =
        tbSpec (vForward vInit soft).2.reverse (vBest (vForward vInit soft).1) ∧
      (viterbiDecode soft).1.length = 1072 := by
  refine ⟨⟨?_, ?_⟩, ?_, ?_, ⟨rfl, ?_⟩, ?_, ?_⟩
  · rw [vInit, getD_set_self _ _ _ 0 (by simp)]
  · intro s hs0 hs64
    rw [vInit, getD_set_ne _ _ _ 0 s (by omega), getD_replicate_self]
  · intro q
    constructor
    · simp [branchMetric]
    · simp [branchMetric]
  · intro m sg1 sg2 s hs
    rw [vStep_fst_getD m sg1 sg2 s hs, min_def]
  · exact fun s hs => (vBest_spec (vForward vInit soft).1).2 s hs
  · show (vTracebackGo (vForward vInit soft).2.reverse (vBest (vForward vInit soft).1) []).1 = _
    rw [vTracebackGo_eq_tbSpec]
    simp
  · show (vTracebackGo (vForward vInit soft).2.reverse (vBest (vForward vInit soft).1) []).1.length = 1072
    rw [vTracebackGo_eq_tbSpec]
    simp [tbSpec_length, vForward_decs_length, hlen]

/-- Witness for C4 at a concrete 2144-entry soft input. -/
theorem viterbi_decoder_contract_witness :
    (List.replicate 2144 (0 : Int)).length = 2144 ∧
      ((viterbiDecode (List.replicate 2144 (0 : Int))).1.length = 1072 ∧
        (viterbiDecode (List.replicate 2144 (0 : Int))).2 =
          (vForward vInit (List.replicate 2144 (0 : Int))).1.getD
            (vBest (vForward vInit (List.replicate 2144 (0 : Int))).1) INF) :=
  ⟨by simp,
    (viterbi_decoder_contract (List.replicate 2144 (0 : Int)) (by simp)).2.2.2.2.2,
    ((viterbi_decoder_contract (List.replicate 2144 (0 : Int)) (by simp)).2.2.2.1).1⟩

/-! ### Sync tracker (opv-demod-afc.cpp `SyncTracker`)

Soft symbol values (C++ `double`) are modelled as exact rationals; the state
machine only compares them against the threshold constants. -/

inductive SyncState where
  | HUNTING
  | VERIFYING
  | LOCKED
deriving DecidableEq

/-- The sync correlation template: `+1` for an expected sync bit 0, `-1` for
an expected sync bit 1 (`(SYNC_WORD >> (23 - i)) & 1`). -/
def syncPattern (i : Nat) : ℚ :=
  if (0x02B8DB >>> (23 - i)) &&& 1 = 1 then -1 else 1

/-- The mutable state of `SyncTracker`. -/
structure SyncTracker where
  state : SyncState
  softBuf : List ℚ
  corrBuf : List ℚ
  corrIdx : Nat
  symbolsSinceSync : Nat
  payloadStart : Nat
  syncQuality : ℚ
  misses : Nat
  totalFrames : Nat

/-- The constructor of `SyncTracker`: HUNTING, zeroed counters, zero-filled
24-entry correlation ring. -/
def initTracker : SyncTracker :=
  ⟨SyncState.HUNTING, [], List.replicate 24 0, 0, 0, 0, 0, 0, 0⟩

/-- The raw correlation of `soft_correlate`: the ring buffer read oldest to
newest against the sync pattern. -/
def softCorrRaw (t : SyncTracker) : ℚ :=
  ((List.range 24).map (fun i => t.corrBuf.getD ((t.corrIdx + i) % 24) 0 * syncPattern i)).sum

/-- The total energy accumulated by `soft_correlate`. -/
def softCorrEnergy (t : SyncTracker) : ℚ :=
  ((List.range 24).map (fun i => |t.corrBuf.getD ((t.corrIdx + i) % 24) 0|)).sum

/-- The normalized correlation returned by `soft_correlate`: 0 when the
energy is below `MIN_SYNC_ENERGY = 100`, else `raw / energy`. -/
def softCorrNorm (t : SyncTracker) : ℚ :=
  if softCorrEnergy t < 100 then 0 else softCorrRaw t / softCorrEnergy t

/-- `SyncTracker::process` return value. -/
structure SyncResult where
  frameReady : Bool
  payloadStart : Nat
  syncQuality : ℚ

def noRes : SyncResult := ⟨false, 0, 0⟩

/-- The unconditional updates at the top of `SyncTracker::process`: write the
ring buffer, advance the ring index, push the soft value, count the symbol. -/
def SyncTracker.ingest (t : SyncTracker) (v : ℚ) : SyncTracker :=
  { t with corrBuf := t.corrBuf.set t.corrIdx v,
           corrIdx := (t.corrIdx + 1) % 24,
           softBuf := t.softBuf ++ [v],
           symbolsSinceSync := t.symbolsSinceSync + 1 }

/-- The LOCKED-state buffer trim: when more than `4 * FRAME_SYMBOLS = 8672`
symbols are buffered, keep the last `2 * FRAME_SYMBOLS = 4336`. -/
def trimLocked (t : SyncTracker) : SyncTracker :=
  if 8672 < t.softBuf.length then
    { t with softBuf := t.softBuf.drop (t.softBuf.length - 4336) }
  else t

/-- `SyncTracker::process`: the three-state machine of the demodulator. -/
def SyncTracker.process (t : SyncTracker) (v : ℚ) : SyncResult × SyncTracker :=
  let t1 := t.ingest v
  match t1.state with
  | SyncState.HUNTING =>
    if t1.softBuf.length < 24 then (noRes, t1)
    else
      let t2 :=
        if (5000 : ℚ) ≤ softCorrRaw t1 ∧ (0.85 : ℚ) ≤ softCorrNorm t1 then
          { t1 with state := SyncState.VERIFYING, payloadStart := t1.softBuf.length,
                    syncQuality := softCorrNorm t1, symbolsSinceSync := 0 }
        else t1
      (noRes,
        if 50000 < t2.softBuf.length then
          { t2 with softBuf := t2.softBuf.drop 40000, payloadStart := 0 }
        else t2)
  | SyncState.VERIFYING =>
    if 2144 ≤ t1.symbolsSinceSync then
      (⟨true, t1.payloadStart, t1.syncQuality⟩,
        { t1 with state := SyncState.LOCKED, symbolsSinceSync := 0, misses := 0,
                  totalFrames := t1.totalFrames + 1 })
    else (noRes, t1)
  | SyncState.LOCKED =>
    if t1.symbolsSinceSync = 2168 then
      let corr := softCorrNorm t1
      let rps := t1.softBuf.length - 2144
      if (0.40 : ℚ) ≤ corr then
        (⟨true, rps, corr⟩,
          trimLocked { t1 with misses := 0, syncQuality := corr, symbolsSinceSync := 0,
                               totalFrames := t1.totalFrames + 1 })
      else
        if 5 ≤ t1.misses + 1 then
          (noRes, { t1 with state := SyncState.HUNTING, misses := t1.misses + 1 })
        else
          (⟨true, rps, corr⟩,
            trimLocked { t1 with misses := t1.misses + 1, syncQuality := corr,
                                 symbolsSinceSync := 0,
                                 totalFrames := t1.totalFrames + 1 })
    else (noRes, t1)

/-- Trackers reachable from construction by processing soft symbols. -/
inductive SyncReach : SyncTracker → Prop
  | init : SyncReach initTracker
  | step (v : ℚ) (t : SyncTracker) : SyncReach t → SyncReach (t.process v).2

theorem ingest_state (t : SyncTracker) (v : ℚ) : (t.ingest v).state = t.state := rfl

theorem process_hunting_iff (t : SyncTracker) (v : ℚ) (h : t.state = SyncState.HUNTING) :
    (t.process v).2.state = SyncState.VERIFYING ↔
      24 ≤ (t.ingest v).softBuf.length ∧ (5000 : ℚ) ≤ softCorrRaw (t.ingest v) ∧
        (0.85 : ℚ) ≤ softCorrNorm (t.ingest v) := by
  unfold SyncTracker.process
  dsimp only
  rw [ingest_state, h]
  by_cases hlen : (t.ingest v).softBuf.length < 24
  · rw [if_pos hlen]
    simp only [ingest_state, h]
    constructor
    · intro hv; exact absurd hv (by simp)
    · intro hv; omega
  · rw [if_neg hlen]
    by_cases hth : (5000 : ℚ) ≤ softCorrRaw (t.ingest v) ∧
        (0.85 : ℚ) ≤ softCorrNorm (t.ingest v)
    · rw [if_pos hth]
      constructor
      · intro _; exact ⟨by omega, hth⟩
      · intro _
        dsimp only
        rw [apply_ite SyncTracker.state]
        dsimp only
        rw [ite_self]
    · rw [if_neg hth]
      constructor
      · intro hv
        dsimp only at hv
        rw [apply_ite SyncTracker.state] at hv
        dsimp only at hv
        rw [ingest_state, h, ite_self] at hv
        exact absurd hv (by simp)
      · intro hv; exact absurd ⟨hv.2.1, hv.2.2⟩ hth

theorem process_locked_quiet (t : SyncTracker) (v : ℚ) (h : t.state = SyncState.LOCKED)
    (hn : (t.ingest v).symbolsSinceSync ≠ 2168) :
    t.process v = (noRes, t.ingest v) := by
  unfold SyncTracker.process
  dsimp only
  rw [ingest_state, h]
  rw [if_neg hn]

theorem process_locked_eval (t : SyncTracker) (v : ℚ) (h : t.state = SyncState.LOCKED)
    (hn : (t.ingest v).symbolsSinceSync = 2168) :
    ((0.40 : ℚ) ≤ softCorrNorm (t.ingest v) →
        (t.process v).2.state = SyncState.LOCKED ∧ (t.process v).2.misses = 0 ∧
          (t.process v).1.frameReady = true ∧ (t.process v).2.symbolsSinceSync = 0) ∧
      (¬ (0.40 : ℚ) ≤ softCorrNorm (t.ingest v) → 5 ≤ t.misses + 1 →
        (t.process v).2.state = SyncState.HUNTING ∧ (t.process v).2.misses = t.misses + 1 ∧
          (t.process v).1.frameReady = false) ∧
      (¬ (0.40 : ℚ) ≤ softCorrNorm (t.ingest v) → t.misses + 1 < 5 →
        (t.process v).2.state = SyncState.LOCKED ∧ (t.process v).2.misses = t.misses + 1 ∧
          (t.process v).1.frameReady = true ∧ (t.process v).2.symbolsSinceSync = 0) := by
  have hmiss : (t.ingest v).misses = t.misses := rfl
  unfold SyncTracker.process
  dsimp only
  rw [ingest_state, h]
  dsimp only
  rw [if_pos hn]
  refine ⟨fun hc => ?_, fun hc hm => ?_, fun hc hm => ?_⟩
  · rw [if_pos hc]
    refine ⟨?_, ?_, rfl, ?_⟩
    · unfold trimLocked
      dsimp only
      rw [apply_ite SyncTracker.state]
      dsimp only
      simp only [ite_self]
      all_goals first | rfl | exact h | simp [SyncTracker.ingest, h]
    · unfold trimLocked
      dsimp only
      rw [apply_ite SyncTracker.misses]
      dsimp only
      simp only [ite_self]
    · unfold trimLocked
      dsimp only
      rw [apply_ite SyncTracker.symbolsSinceSync]
      dsimp only
      simp only [ite_self]
  · rw [if_neg hc]
    simp only [hmiss]
    rw [if_pos hm]
    exact ⟨rfl, rfl, rfl⟩
  · rw [if_neg hc]
    simp only [hmiss]
    rw [if_neg (by omega)]
    refine ⟨?_, ?_, rfl, ?_⟩
    · unfold trimLocked
      dsimp only
      rw [apply_ite SyncTracker.state]
      dsimp only
      simp only [ite_self]
      all_goals first | rfl | exact h | simp [SyncTracker.ingest, h]
    · unfold trimLocked
      dsimp only
      rw [apply_ite SyncTracker.misses]
      dsimp only
      simp only [ite_self]
      all_goals first | rfl | rw [hmiss]
    · unfold trimLocked
      dsimp only
      rw [apply_ite SyncTracker.symbolsSinceSync]
      dsimp only
      simp only [ite_self]

theorem process_hunting_misses (t : SyncTracker) (v : ℚ) (h : t.state = SyncState.HUNTING) :
    (t.process v).2.misses = t.misses := by
  unfold SyncTracker.process
  dsimp only
  rw [ingest_state, h]
  dsimp only
  by_cases hlen : (t.ingest v).softBuf.length < 24
  · rw [if_pos hlen]
    rfl
  · rw [if_neg hlen]
    by_cases hth : (5000 : ℚ) ≤ softCorrRaw (t.ingest v) ∧
        (0.85 : ℚ) ≤ softCorrNorm (t.ingest v)
    · rw [if_pos hth]
      dsimp only
      rw [apply_ite SyncTracker.misses]
      dsimp only
      simp only [ite_self]
      rfl
    · rw [if_neg hth]
      dsimp only
      rw [apply_ite SyncTracker.misses]
      dsimp only
      simp only [ite_self]
      rfl

theorem process_hunting_state (t : SyncTracker) (v : ℚ) (h : t.state = SyncState.HUNTING) :
    (t.process v).2.state = SyncState.HUNTING ∨
      (t.process v).2.state = SyncState.VERIFYING := by
  unfold SyncTracker.process
  dsimp only
  rw [ingest_state, h]
  dsimp only
  by_cases hlen : (t.ingest v).softBuf.length < 24
  · rw [if_pos hlen]
    refine Or.inl ?_
    all_goals first | rfl | exact h | simp [SyncTracker.ingest, h]
  · rw [if_neg hlen]
    by_cases hth : (5000 : ℚ) ≤ softCorrRaw (t.ingest v) ∧
        (0.85 : ℚ) ≤ softCorrNorm (t.ingest v)
    · rw [if_pos hth]
      refine Or.inr ?_
      dsimp only
      rw [apply_ite SyncTracker.state]
      dsimp only
      simp only [ite_self]
    · rw [if_neg hth]
      refine Or.inl ?_
      dsimp only
      rw [apply_ite SyncTracker.state]
      dsimp only
      simp only [ite_self]
      all_goals first | rfl | exact h | simp [SyncTracker.ingest, h]

theorem process_verifying_cases (t : SyncTracker) (v : ℚ)
    (h : t.state = SyncState.VERIFYING) :
    ((t.process v).2.misses = t.misses ∧ (t.process v).2.state = SyncState.VERIFYING) ∨
      ((t.process v).2.misses = 0 ∧ (t.process v).2.state = SyncState.LOCKED) := by
  unfold SyncTracker.process
  dsimp only
  rw [ingest_state, h]
  dsimp only
  by_cases hc : 2144 ≤ (t.ingest v).symbolsSinceSync
  · rw [if_pos hc]
    exact Or.inr ⟨rfl, rfl⟩
  · rw [if_neg hc]
    refine Or.inl ⟨rfl, ?_⟩
    all_goals first | rfl | exact h | simp [SyncTracker.ingest, h]

theorem process_locked_cases (t : SyncTracker) (v : ℚ) (h : t.state = SyncState.LOCKED) :
    (t.process v).2 = t.ingest v ∨
      ((t.process v).2.misses = 0 ∧ (t.process v).2.state = SyncState.LOCKED) ∨
      ((t.process v).2.misses = t.misses + 1 ∧
        (t.process v).2.state = SyncState.HUNTING) ∨
      ((t.process v).2.misses = t.misses + 1 ∧
        (t.process v).2.state = SyncState.LOCKED ∧ t.misses + 1 < 5) := by
  by_cases hn : (t.ingest v).symbolsSinceSync = 2168
  · obtain ⟨h1, h2, h3⟩ := process_locked_eval t v h hn
    by_cases hc : (0.40 : ℚ) ≤ softCorrNorm (t.ingest v)
    · exact Or.inr (Or.inl ⟨(h1 hc).2.1, (h1 hc).1⟩)
    · by_cases hm : 5 ≤ t.misses + 1
      · exact Or.inr (Or.inr (Or.inl ⟨(h2 hc hm).2.1, (h2 hc hm).1⟩))
      · exact Or.inr (Or.inr (Or.inr
          ⟨(h3 hc (by omega)).2.1, (h3 hc (by omega)).1, by omega⟩))
  · exact Or.inl (by rw [process_locked_quiet t v h hn])

theorem sync_misses_invariant (t : SyncTracker) (h : SyncReach t) :
    t.misses ≤ 5 ∧ (t.state = SyncState.LOCKED → t.misses ≤ 4) := by
  induction h with
  | init => exact ⟨by decide, fun hc => by simp [initTracker] at hc⟩
  | step v t2 _ ihp =>
    obtain ⟨ih5, ih4⟩ := ihp
    rcases hstate : t2.state with _ | _ | _
    · rw [process_hunting_misses t2 v hstate]
      refine ⟨ih5, fun hc => ?_⟩
      rcases process_hunting_state t2 v hstate with hs | hs <;>
        (rw [hs] at hc; exact absurd hc (by simp))
    · rcases process_verifying_cases t2 v hstate with ⟨hm, hs⟩ | ⟨hm, hs⟩
      · rw [hm]
        refine ⟨ih5, fun hc => ?_⟩
        rw [hs] at hc
        exact absurd hc (by simp)
      · rw [hm]
        exact ⟨by norm_num, fun _ => by norm_num⟩
    · have hm4 : t2.misses ≤ 4 := ih4 hstate
      rcases process_locked_cases t2 v hstate with hq | ⟨hm, _⟩ | ⟨hm, hs⟩ | ⟨hm, _, hlt⟩
      · have hmi : (t2.ingest v).misses = t2.misses := rfl
        have hsi : (t2.ingest v).state = t2.state := rfl
        rw [hq, hmi, hsi, hstate]
        exact ⟨ih5, fun _ => hm4⟩
      · rw [hm]
        exact ⟨by norm_num, fun _ => by norm_num⟩
      · rw [hm]
        refine ⟨by omega, fun hc => ?_⟩
        rw [hs] at hc
        exact absurd hc (by simp)
      · rw [hm]
        exact ⟨by omega, fun _ => by omega⟩

/-- C6 counterexample: the claimed transition condition is not sufficient on
its own.  A fresh tracker fed the single soft value -6000 has raw
correlation 6000 >= 5000 and normalized correlation 1 >= 0.85, yet it stays
in HUNTING, because the code also requires at least 24 buffered symbols. -/
theorem sync_hunting_guard_counterexample :
    initTracker.state = SyncState.HUNTING ∧
      (5000 : ℚ) ≤ softCorrRaw (initTracker.ingest (-6000)) ∧
      (0.85 : ℚ) ≤ softCorrNorm (initTracker.ingest (-6000)) ∧
      (initTracker.process (-6000)).2.state = SyncState.HUNTING := by
  have hraw : softCorrRaw (initTracker.ingest (-6000)) = 6000 := by
    norm_num [softCorrRaw, SyncTracker.ingest, initTracker, syncPattern, List.replicate,
      List.range_succ]
  have hen : softCorrEnergy (initTracker.ingest (-6000)) = 6000 := by
    norm_num [softCorrEnergy, SyncTracker.ingest, initTracker, List.replicate,
      List.range_succ]
  refine ⟨rfl, by rw [hraw]; norm_num, ?_, ?_⟩
  · rw [softCorrNorm, hen, hraw]
    norm_num
  · unfold SyncTracker.process
    dsimp only
    rw [ingest_state]
    rw [show initTracker.state = SyncState.HUNTING from rfl]
    dsimp only
    rw [if_pos (by norm_num [SyncTracker.ingest, initTracker])]
    rfl

/-- C6 amended.  The sync tracker transition contract, with the buffered-24
guard the code imposes in HUNTING: from HUNTING it moves to VERIFYING exactly
when at least 24 symbols are buffered and the correlation satisfies raw >=
5000 and normalized >= 0.85 (both inclusive); once LOCKED the correlation is
re-evaluated exactly when 2168 symbols have passed since the previous sync
(otherwise the step changes nothing but the buffers); at the evaluation it
confirms sync and resets the missed-count when normalized >= 0.40, otherwise
increments the missed-count, flywheeling (still emitting the collected
payload) while the count stays below 5 and falling back to HUNTING when it
reaches 5; in every reachable state the missed-count is at most 5. -/
theorem sync_tracker_contract :
    (∀ (t : SyncTracker) (v : ℚ), t.state = SyncState.HUNTING →
        ((t.process v).2.state = SyncState.VERIFYING ↔
          24 ≤ (t.ingest v).softBuf.length ∧ (5000 : ℚ) ≤ softCorrRaw (t.ingest v) ∧
            (0.85 : ℚ) ≤ softCorrNorm (t.ingest v))) ∧
      (∀ (t : SyncTracker) (v : ℚ), t.state = SyncState.LOCKED →
        (t.ingest v).symbolsSinceSync ≠ 2168 → t.process v = (noRes, t.ingest v)) ∧
      (∀ (t : SyncTracker) (v : ℚ), t.state = SyncState.LOCKED →
        (t.ingest v).symbolsSinceSync = 2168 →
        ((0.40 : ℚ) ≤ softCorrNorm (t.ingest v) →
            (t.process v).2.state = SyncState.LOCKED ∧ (t.process v).2.misses = 0 ∧
              (t.process v).1.frameReady = true ∧ (t.process v).2.symbolsSinceSync = 0) ∧
          (¬ (0.40 : ℚ) ≤ softCorrNorm (t.ingest v) → 5 ≤ t.misses + 1 →
            (t.process v).2.state = SyncState.HUNTING ∧
              (t.process v).2.misses = t.misses + 1 ∧
              (t.process v).1.frameReady = false) ∧
          (¬ (0.40 : ℚ) ≤ softCorrNorm (t.ingest v) → t.misses + 1 < 5 →
            (t.process v).2.state = SyncState.LOCKED ∧
              (t.process v).2.misses = t.misses + 1 ∧
              (t.process v).1.frameReady = true ∧ (t.process v).2.symbolsSinceSync = 0)) ∧
      (∀ t : SyncTracker, SyncReach t → t.misses ≤ 5) :=
  ⟨process_hunting_iff, process_locked_quiet, process_locked_eval,
    fun t h => (sync_misses_invariant t h).1⟩

/-- Witness for the amended C6: the missed-count bound applied at the freshly
constructed tracker. -/
theorem sync_tracker_contract_witness :
    initTracker.state = SyncState.HUNTING ∧ initTracker.misses ≤ 5 :=
  ⟨rfl, sync_tracker_contract.2.2.2 initTracker SyncReach.init⟩


/-! ### The alternate 0x79/0x5B encoder and Viterbi decoder
(`conv_encode_k7` in the HDL-aligned pipeline and the `ViterbiDecoder`
class with `G1 = 0x79`, `G2 = 0x5B`) -/

/-- One bit of the 0x79/0x5B convolutional encoder `conv_encode_k7`:
`state = (input_bit << 6) | memory`, `g1 = parity(state & 0x79)`,
`g2 = parity(state & 0x5B)`, `memory = ((memory << 1) | input_bit) & 0x3F`. -/
def encB (sr b : Nat) : Nat × Nat × Nat :=
  let state := (b <<< 6) ||| sr
  (parity (state &&& 0x79), parity (state &&& 0x5B), ((sr <<< 1) ||| b) &&& 0x3F)

/-- The bit-level run of `conv_encode_k7`: each input bit emits `g1` then
`g2` (the byte loop feeds bytes in order, bits MSB first). -/
def convEncodeB (sr : Nat) : List Nat → List Nat
  | [] => []
  | b :: rest =>
    (encB sr b).1 :: (encB sr b).2.1 :: convEncodeB (encB sr b).2.2 rest

/-- Grouping a flat `g1 g2 g1 g2 …` bit stream into the
`(first, second)` symbol pairs consumed by the alternate decoder. -/
def toPairs : List Nat → List (Nat × Nat)
  | g1 :: g2 :: rest => (g1, g2) :: toPairs rest
  | _ => []

/-- The `INF = 100000` sentinel of the alternate `ViterbiDecoder::decode`. -/
def bINF : Int := 100000

/-- The `branch_output_` table of the alternate decoder:
`(parity(state & 0x79) << 1) | parity(state & 0x5B)` for
`state = (inp << 6) | sr`. -/
def bBranchOut (sr inp : Nat) : Nat :=
  (parity (((inp <<< 6) ||| sr) &&& 0x79) <<< 1) ||| parity (((inp <<< 6) ||| sr) &&& 0x5B)

/-- The `next_state_` table of the alternate decoder:
`((sr << 1) | inp) & 0x3F`. -/
def bNextState (sr inp : Nat) : Nat := ((sr <<< 1) ||| inp) &&& 0x3F

/-- `__builtin_popcount` restricted to the 2-bit values that occur:
the received and expected symbols are both below 4. -/
def popcount2 (x : Nat) : Nat := (x &&& 1) + ((x >>> 1) &&& 1)

/-- One relaxation `if (newpm < npm[ns]) { npm[ns] = newpm; surv[t][ns] = s; }`
of the alternate decoder, for predecessor `s` and input `inp`. -/
def bRelaxOne (pm : List Int) (rx : Nat) (acc : List Int × List Nat) (s inp : Nat) :
    List Int × List Nat :=
  let ns := bNextState s inp
  let newpm := pm.getD s bINF + (popcount2 (rx ^^^ bBranchOut s inp) : Int)
  if newpm < acc.1.getD ns bINF then (acc.1.set ns newpm, acc.2.set ns s) else acc

/-- The loop body over a source state `s`:
`if (pm[s] >= INF) continue;` then relax input 0 and input 1. -/
def bScan (pm : List Int) (rx : Nat) (acc : List Int × List Nat) (s : Nat) :
    List Int × List Nat :=
  if bINF ≤ pm.getD s bINF then acc
  else bRelaxOne pm rx (bRelaxOne pm rx acc s 0) s 1

/-- One full trellis step of the alternate decoder: `npm.fill(INF)`, the
fresh survivor row (value-initialized to 0), then the scatter over all 64
source states in ascending order. -/
def bStep (pm : List Int) (rx : Nat) : List Int × List Nat :=
  (List.range 64).foldl (bScan pm rx) (List.replicate 64 bINF, List.replicate 64 0)

/-- The forward pass of the alternate decoder over the symbol pairs, with
`rx = (first << 1) | second`; returns the final metrics and the survivor
rows in chronological order. -/
def bForward (pm : List Int) : List (Nat × Nat) → List Int × List (List Nat)
  | [] => (pm, [])
  | sym :: rest =>
    let st := bStep pm ((sym.1 <<< 1) ||| sym.2)
    let r := bForward st.1 rest
    (r.1, st.2 :: r.2)

/-- `for (s = 1; s < 64; ++s) if (pm[s] < pm[best_s]) best_s = s;` -/
def bBest (pm : List Int) : Nat :=
  (List.range 63).foldl
    (fun best i => if pm.getD (i + 1) bINF < pm.getD best bINF then i + 1 else best) 0

/-- The traceback of the alternate decoder, consuming survivor rows from the
last step backwards: `ps = surv[t][s]`, emit `next_state_[ps][1] == s ? 1 : 0`,
move to `ps`.  The accumulator collects bits in chronological order; returns
(bits, initial state). -/
def bTracebackGo : List (List Nat) → Nat → List Nat → List Nat × Nat
  | [], s, acc => (acc, s)
  | sv :: rest, s, acc =>
    bTracebackGo rest (sv.getD s 0) ((if bNextState (sv.getD s 0) 1 = s then 1 else 0) :: acc)

/-- `pm.fill(INF); pm[0] = 0;` of the alternate decoder. -/
def bInit : List Int :=
  (List.replicate 64 bINF).set 0 0

/-- The alternate `ViterbiDecoder::decode`: empty input returns an empty
bit vector; otherwise forward pass, global-minimum start state, traceback. -/
def bDecode (symbols : List (Nat × Nat)) : List Nat :=
  match symbols with
  | [] => []
  | p :: l =>
    (bTracebackGo (bForward bInit (p :: l)).2.reverse (bBest (bForward bInit (p :: l)).1) []).1

/-! ### Zero-noise correctness machinery for the alternate decoder -/

theorem bINF_pos : (0 : Int) < bINF := by decide

theorem bNextState_lt (s i : Nat) : bNextState s i < 64 :=
  Nat.lt_succ_of_le Nat.and_le_right

theorem bNext_children : ∀ σ, σ < 64 → bNextState σ 0 ≠ bNextState σ 1 := by decide

theorem bBranch_bm_pos : ∀ σ, σ < 64 → ∀ b, b < 2 → ∀ i, i < 2 → b ≠ i →
    1 ≤ popcount2 (bBranchOut σ b ^^^ bBranchOut σ i) := by decide

theorem bBranch_bm_self (σ b : Nat) :
    popcount2 (bBranchOut σ b ^^^ bBranchOut σ b) = 0 := by
  rw [Nat.xor_self]
  rfl

theorem encB_rx (σ b : Nat) :
    (((encB σ b).1) <<< 1) ||| (encB σ b).2.1 = bBranchOut σ b := rfl

theorem encB_state (σ b : Nat) : (encB σ b).2.2 = bNextState σ b := rfl

/-- The invariant carried through the alternate forward pass when the
received symbols are the noise-free image of the encoder run whose current
register is `σ`: 64 entries, metric 0 at the true state, every entry the
`bINF` sentinel or nonnegative, and 0 attained only at the true state. -/
def goodB (m : List Int) (σ : Nat) : Prop :=
  m.length = 64 ∧ m.getD σ bINF = 0 ∧
    (∀ s, s < 64 → m.getD s bINF = bINF ∨ 0 ≤ m.getD s bINF) ∧
    (∀ s, s < 64 → m.getD s bINF = 0 → s = σ)

theorem foldl_invar {α β : Type} (f : α → β → α) (P : α → Prop) :
    ∀ (l : List β), (∀ acc x, x ∈ l → P acc → P (f acc x)) →
      ∀ acc, P acc → P (l.foldl f acc) := by
  intro l
  induction l with
  | nil => intro _ acc h; exact h
  | cons x t ih =>
    intro hstep acc hP
    exact ih (fun a y hy => hstep a y (List.mem_cons_of_mem x hy)) _
      (hstep acc x (List.mem_cons_self x t) hP)

theorem range64_split (σ : Nat) (h : σ < 64) :
    List.range 64 = List.range' 0 σ ++ σ :: List.range' (σ + 1) (63 - σ) := by
  rw [List.range_eq_range']
  rw [show (64 : Nat) = (64 - σ) + σ by omega]
  rw [← List.range'_append 0 σ (64 - σ) 1]
  simp only [Nat.one_mul, Nat.zero_add]
  congr 1
  rw [show 64 - σ = (63 - σ) + 1 by omega]
  rw [List.range'_succ]

theorem bRelaxOne_length (pm : List Int) (rx : Nat) (acc : List Int × List Nat) (s inp : Nat) :
    (bRelaxOne pm rx acc s inp).1.length = acc.1.length ∧
      (bRelaxOne pm rx acc s inp).2.length = acc.2.length := by
  unfold bRelaxOne
  dsimp only
  split
  · exact ⟨List.length_set _ _ _, List.length_set _ _ _⟩
  · exact ⟨rfl, rfl⟩

theorem bRelaxOne_getD_ne (pm : List Int) (rx : Nat) (acc : List Int × List Nat)
    (s inp ns : Nat) (h : bNextState s inp ≠ ns) :
    (bRelaxOne pm rx acc s inp).1.getD ns bINF = acc.1.getD ns bINF ∧
      (bRelaxOne pm rx acc s inp).2.getD ns 0 = acc.2.getD ns 0 := by
  unfold bRelaxOne
  dsimp only
  split
  · exact ⟨getD_set_ne _ _ _ _ _ h, getD_set_ne _ _ _ _ _ h⟩
  · exact ⟨rfl, rfl⟩

theorem bRelaxOne_getD_fst_eq (pm : List Int) (rx : Nat) (acc : List Int × List Nat)
    (s inp ns : Nat) (h : bNextState s inp = ns) (h1 : ns < acc.1.length) :
    (bRelaxOne pm rx acc s inp).1.getD ns bINF =
      if pm.getD s bINF + (popcount2 (rx ^^^ bBranchOut s inp) : Int) < acc.1.getD ns bINF
      then pm.getD s bINF + (popcount2 (rx ^^^ bBranchOut s inp) : Int)
      else acc.1.getD ns bINF := by
  unfold bRelaxOne
  dsimp only
  rw [h]
  split
  · exact getD_set_self _ _ _ _ h1
  · rfl

theorem bRelaxOne_getD_snd_eq (pm : List Int) (rx : Nat) (acc : List Int × List Nat)
    (s inp ns : Nat) (h : bNextState s inp = ns) (h2 : ns < acc.2.length) :
    (bRelaxOne pm rx acc s inp).2.getD ns 0 =
      if pm.getD s bINF + (popcount2 (rx ^^^ bBranchOut s inp) : Int) < acc.1.getD ns bINF
      then s
      else acc.2.getD ns 0 := by
  unfold bRelaxOne
  dsimp only
  rw [h]
  split
  · exact getD_set_self _ _ _ _ h2
  · rfl

/-- One relaxation preserves "length 64 and entry at `ns` is `bINF` or at
least 1", provided the candidate into `ns` (if any) is at least 1. -/
theorem bRelaxOne_presQ (pm : List Int) (rx : Nat) (acc : List Int × List Nat)
    (s inp ns : Nat) (hns : ns < 64)
    (hQ : acc.1.length = 64 ∧ acc.2.length = 64 ∧
      (acc.1.getD ns bINF = bINF ∨ 1 ≤ acc.1.getD ns bINF))
    (hc : bNextState s inp = ns →
      1 ≤ pm.getD s bINF + (popcount2 (rx ^^^ bBranchOut s inp) : Int)) :
    (bRelaxOne pm rx acc s inp).1.length = 64 ∧
      (bRelaxOne pm rx acc s inp).2.length = 64 ∧
      ((bRelaxOne pm rx acc s inp).1.getD ns bINF = bINF ∨
        1 ≤ (bRelaxOne pm rx acc s inp).1.getD ns bINF) := by
  obtain ⟨hl1, hl2, hQv⟩ := hQ
  obtain ⟨hr1, hr2⟩ := bRelaxOne_length pm rx acc s inp
  refine ⟨hr1.trans hl1, hr2.trans hl2, ?_⟩
  by_cases hts : bNextState s inp = ns
  · rw [bRelaxOne_getD_fst_eq pm rx acc s inp ns hts (by omega)]
    split
    · exact Or.inr (hc hts)
    · exact hQv
  · rw [(bRelaxOne_getD_ne pm rx acc s inp ns hts).1]
    exact hQv

/-- One relaxation preserves "length 64, metric 0 at `ns`, survivor `σ` at
`ns`", provided the candidate into `ns` (if any) is nonnegative. -/
theorem bRelaxOne_presP3 (pm : List Int) (rx : Nat) (acc : List Int × List Nat)
    (s inp ns σ : Nat) (hns : ns < 64)
    (hP : acc.1.length = 64 ∧ acc.2.length = 64 ∧
      acc.1.getD ns bINF = 0 ∧ acc.2.getD ns 0 = σ)
    (hc : bNextState s inp = ns →
      0 ≤ pm.getD s bINF + (popcount2 (rx ^^^ bBranchOut s inp) : Int)) :
    (bRelaxOne pm rx acc s inp).1.length = 64 ∧
      (bRelaxOne pm rx acc s inp).2.length = 64 ∧
      (bRelaxOne pm rx acc s inp).1.getD ns bINF = 0 ∧
      (bRelaxOne pm rx acc s inp).2.getD ns 0 = σ := by
  obtain ⟨hl1, hl2, hv, hsv⟩ := hP
  obtain ⟨hr1, hr2⟩ := bRelaxOne_length pm rx acc s inp
  refine ⟨hr1.trans hl1, hr2.trans hl2, ?_, ?_⟩
  · by_cases hts : bNextState s inp = ns
    · rw [bRelaxOne_getD_fst_eq pm rx acc s inp ns hts (by omega)]
      rw [if_neg (by rw [hv]; exact not_lt.mpr (hc hts))]
      exact hv
    · rw [(bRelaxOne_getD_ne pm rx acc s inp ns hts).1]
      exact hv
  · by_cases hts : bNextState s inp = ns
    · rw [bRelaxOne_getD_snd_eq pm rx acc s inp ns hts (by omega)]
      rw [if_neg (by rw [hv]; exact not_lt.mpr (hc hts))]
      exact hsv
    · rw [(bRelaxOne_getD_ne pm rx acc s inp ns hts).2]
      exact hsv

/-- Scanning any source state `s < 64` preserves "`bINF` or at least 1" at a
destination `ns` other than the true next state `bNextState σ b`, when the
received symbol is the noise-free `bBranchOut σ b` and the metrics are good
for `σ`. -/
theorem bScan_presQ (pm : List Int) (σ b : Nat) (hgood : goodB pm σ)
    (hσ : σ < 64) (hb : b < 2) (ns : Nat) (hns : ns < 64)
    (hne2 : bNextState σ b ≠ ns) (s : Nat) (hs : s < 64)
    (acc : List Int × List Nat)
    (hQ : acc.1.length = 64 ∧ acc.2.length = 64 ∧
      (acc.1.getD ns bINF = bINF ∨ 1 ≤ acc.1.getD ns bINF)) :
    (bScan pm (bBranchOut σ b) acc s).1.length = 64 ∧
      (bScan pm (bBranchOut σ b) acc s).2.length = 64 ∧
      ((bScan pm (bBranchOut σ b) acc s).1.getD ns bINF = bINF ∨
        1 ≤ (bScan pm (bBranchOut σ b) acc s).1.getD ns bINF) := by
  unfold bScan
  split
  · exact hQ
  · rename_i hguard
    have hpml : pm.getD s bINF < bINF := lt_of_not_le hguard
    have hpm0 : 0 ≤ pm.getD s bINF := by
      rcases hgood.2.2.1 s hs with h | h
      · rw [h] at hpml; exact absurd hpml (lt_irrefl _)
      · exact h
    have hc : ∀ i, i < 2 → bNextState s i = ns →
        1 ≤ pm.getD s bINF + (popcount2 (bBranchOut σ b ^^^ bBranchOut s i) : Int) := by
      intro i hi hts
      by_cases hsσ : s = σ
      · subst hsσ
        have hbi : b ≠ i := by
          intro hbieq
          rw [hbieq] at hne2
          exact hne2 hts
        have hbm := bBranch_bm_pos s hs b hb i hi hbi
        have hcast : (1 : Int) ≤ (popcount2 (bBranchOut s b ^^^ bBranchOut s i) : Int) := by
          exact_mod_cast hbm
        have h0 : pm.getD s bINF = 0 := hgood.2.1
        rw [h0]
        linarith
      · have hne0 : pm.getD s bINF ≠ 0 := fun h0 => hsσ (hgood.2.2.2 s hs h0)
        have h1 : 1 ≤ pm.getD s bINF := by omega
        have hbm0 : (0 : Int) ≤ (popcount2 (bBranchOut σ b ^^^ bBranchOut s i) : Int) :=
          Int.natCast_nonneg _
        linarith
    exact bRelaxOne_presQ pm (bBranchOut σ b) _ s 1 ns hns
      (bRelaxOne_presQ pm (bBranchOut σ b) acc s 0 ns hns hQ (hc 0 (by norm_num)))
      (hc 1 (by norm_num))

/-- Before the true predecessor `σ` is scanned, the entry at the true next
state stays "`bINF` or at least 1": every earlier source state is distinct
from `σ`, so its candidates are at least 1. -/
theorem bScan_presP1 (pm : List Int) (σ b : Nat) (hgood : goodB pm σ)
    (hσ : σ < 64) (hb : b < 2) (s : Nat) (hs : s < 64) (hsσ : s ≠ σ)
    (acc : List Int × List Nat)
    (hQ : acc.1.length = 64 ∧ acc.2.length = 64 ∧
      (acc.1.getD (bNextState σ b) bINF = bINF ∨
        1 ≤ acc.1.getD (bNextState σ b) bINF)) :
    (bScan pm (bBranchOut σ b) acc s).1.length = 64 ∧
      (bScan pm (bBranchOut σ b) acc s).2.length = 64 ∧
      ((bScan pm (bBranchOut σ b) acc s).1.getD (bNextState σ b) bINF = bINF ∨
        1 ≤ (bScan pm (bBranchOut σ b) acc s).1.getD (bNextState σ b) bINF) := by
  unfold bScan
  split
  · exact hQ
  · rename_i hguard
    have hpml : pm.getD s bINF < bINF := lt_of_not_le hguard
    have hpm0 : 0 ≤ pm.getD s bINF := by
      rcases hgood.2.2.1 s hs with h | h
      · rw [h] at hpml; exact absurd hpml (lt_irrefl _)
      · exact h
    have hne0 : pm.getD s bINF ≠ 0 := fun h0 => hsσ (hgood.2.2.2 s hs h0)
    have hc : ∀ i, bNextState s i = bNextState σ b →
        1 ≤ pm.getD s bINF + (popcount2 (bBranchOut σ b ^^^ bBranchOut s i) : Int) := by
      intro i _
      have h1 : 1 ≤ pm.getD s bINF := by omega
      have hbm0 : (0 : Int) ≤ (popcount2 (bBranchOut σ b ^^^ bBranchOut s i) : Int) :=
        Int.natCast_nonneg _
      linarith
    exact bRelaxOne_presQ pm (bBranchOut σ b) _ s 1 (bNextState σ b) (bNextState_lt σ b)
      (bRelaxOne_presQ pm (bBranchOut σ b) acc s 0 (bNextState σ b) (bNextState_lt σ b)
        hQ (hc 0))
      (hc 1)

/-- Scanning the true predecessor `σ` writes metric 0 and survivor `σ` at
the true next state: the noise-free candidate `pm[σ] + popcount(rx ^ rx) = 0`
strictly beats every value the entry can hold at that point. -/
theorem bScan_sigma (pm : List Int) (σ b : Nat) (hgood : goodB pm σ)
    (hσ : σ < 64) (hb : b < 2)
    (acc : List Int × List Nat)
    (hQ : acc.1.length = 64 ∧ acc.2.length = 64 ∧
      (acc.1.getD (bNextState σ b) bINF = bINF ∨
        1 ≤ acc.1.getD (bNextState σ b) bINF)) :
    (bScan pm (bBranchOut σ b) acc σ).1.length = 64 ∧
      (bScan pm (bBranchOut σ b) acc σ).2.length = 64 ∧
      (bScan pm (bBranchOut σ b) acc σ).1.getD (bNextState σ b) bINF = 0 ∧
      (bScan pm (bBranchOut σ b) acc σ).2.getD (bNextState σ b) 0 = σ := by
  obtain ⟨hl1, hl2, hQv⟩ := hQ
  have hguard : ¬ bINF ≤ pm.getD σ bINF := by
    rw [hgood.2.1]
    decide
  unfold bScan
  rw [if_neg hguard]
  have hcself : pm.getD σ bINF +
      (popcount2 (bBranchOut σ b ^^^ bBranchOut σ b) : Int) = 0 := by
    rw [hgood.2.1, bBranch_bm_self]
    rfl
  have hpos : ∀ x : Int, x = bINF ∨ 1 ≤ x → (0 : Int) < x := by
    intro x hx
    rcases hx with h | h
    · rw [h]; exact bINF_pos
    · linarith
  interval_cases b
  · -- b = 0: the first relaxation writes (0, σ), the second misses the target
    have hts : bNextState σ 0 = bNextState σ 0 := rfl
    have hwrite : pm.getD σ bINF + (popcount2 (bBranchOut σ 0 ^^^ bBranchOut σ 0) : Int) <
        acc.1.getD (bNextState σ 0) bINF := by
      rw [hcself]
      exact hpos _ hQv
    have hr1f := bRelaxOne_getD_fst_eq pm (bBranchOut σ 0) acc σ 0 (bNextState σ 0) hts
      (by rw [hl1]; exact bNextState_lt σ 0)
    have hr1s := bRelaxOne_getD_snd_eq pm (bBranchOut σ 0) acc σ 0 (bNextState σ 0) hts
      (by rw [hl2]; exact bNextState_lt σ 0)
    rw [if_pos hwrite] at hr1f hr1s
    rw [hcself] at hr1f
    have hmiss := bRelaxOne_getD_ne pm (bBranchOut σ 0)
      (bRelaxOne pm (bBranchOut σ 0) acc σ 0) σ 1 (bNextState σ 0)
      (Ne.symm (bNext_children σ hσ))
    obtain ⟨hlen1, hlen2⟩ := bRelaxOne_length pm (bBranchOut σ 0) acc σ 0
    obtain ⟨hlen1b, hlen2b⟩ := bRelaxOne_length pm (bBranchOut σ 0)
      (bRelaxOne pm (bBranchOut σ 0) acc σ 0) σ 1
    refine ⟨by omega, by omega, ?_, ?_⟩
    · rw [hmiss.1, hr1f]
    · rw [hmiss.2, hr1s]
  · -- b = 1: the first relaxation misses the target, the second writes (0, σ)
    have hmiss := bRelaxOne_getD_ne pm (bBranchOut σ 1) acc σ 0 (bNextState σ 1)
      (bNext_children σ hσ)
    obtain ⟨hlen1, hlen2⟩ := bRelaxOne_length pm (bBranchOut σ 1) acc σ 0
    have hwrite : pm.getD σ bINF + (popcount2 (bBranchOut σ 1 ^^^ bBranchOut σ 1) : Int) <
        (bRelaxOne pm (bBranchOut σ 1) acc σ 0).1.getD (bNextState σ 1) bINF := by
      rw [hcself, hmiss.1]
      exact hpos _ hQv
    have hr2f := bRelaxOne_getD_fst_eq pm (bBranchOut σ 1)
      (bRelaxOne pm (bBranchOut σ 1) acc σ 0) σ 1 (bNextState σ 1) rfl
      (by rw [hlen1, hl1]; exact bNextState_lt σ 1)
    have hr2s := bRelaxOne_getD_snd_eq pm (bBranchOut σ 1)
      (bRelaxOne pm (bBranchOut σ 1) acc σ 0) σ 1 (bNextState σ 1) rfl
      (by rw [hlen2, hl2]; exact bNextState_lt σ 1)
    rw [if_pos hwrite] at hr2f hr2s
    rw [hcself] at hr2f
    obtain ⟨hlen1b, hlen2b⟩ := bRelaxOne_length pm (bBranchOut σ 1)
      (bRelaxOne pm (bBranchOut σ 1) acc σ 0) σ 1
    exact ⟨by omega, by omega, hr2f, hr2s⟩

/-- After the true predecessor has written metric 0 at the true next state,
no later relaxation displaces it: every candidate is nonnegative and the
strict comparison with 0 fails. -/
theorem bScan_presP3 (pm : List Int) (σ b : Nat) (hgood : goodB pm σ)
    (hσ : σ < 64) (hb : b < 2) (s : Nat) (hs : s < 64)
    (acc : List Int × List Nat)
    (hP : acc.1.length = 64 ∧ acc.2.length = 64 ∧
      acc.1.getD (bNextState σ b) bINF = 0 ∧ acc.2.getD (bNextState σ b) 0 = σ) :
    (bScan pm (bBranchOut σ b) acc s).1.length = 64 ∧
      (bScan pm (bBranchOut σ b) acc s).2.length = 64 ∧
      (bScan pm (bBranchOut σ b) acc s).1.getD (bNextState σ b) bINF = 0 ∧
      (bScan pm (bBranchOut σ b) acc s).2.getD (bNextState σ b) 0 = σ := by
  unfold bScan
  split
  · exact hP
  · rename_i hguard
    have hpml : pm.getD s bINF < bINF := lt_of_not_le hguard
    have hpm0 : 0 ≤ pm.getD s bINF := by
      rcases hgood.2.2.1 s hs with h | h
      · rw [h] at hpml; exact absurd hpml (lt_irrefl _)
      · exact h
    have hc : ∀ i, bNextState s i = bNextState σ b →
        0 ≤ pm.getD s bINF + (popcount2 (bBranchOut σ b ^^^ bBranchOut s i) : Int) := by
      intro i _
      have hbm0 : (0 : Int) ≤ (popcount2 (bBranchOut σ b ^^^ bBranchOut s i) : Int) :=
        Int.natCast_nonneg _
      linarith
    exact bRelaxOne_presP3 pm (bBranchOut σ b) _ s 1 (bNextState σ b) σ (bNextState_lt σ b)
      (bRelaxOne_presP3 pm (bBranchOut σ b) acc s 0 (bNextState σ b) σ (bNextState_lt σ b)
        hP (hc 0))
      (hc 1)

/-- One noise-free trellis step of the alternate decoder: good metrics for
register `σ` become good metrics for `bNextState σ b`, and the survivor
recorded at the true next state is `σ`. -/
theorem bStep_good (pm : List Int) (σ b : Nat) (hgood : goodB pm σ)
    (hσ : σ < 64) (hb : b < 2) :
    goodB (bStep pm (bBranchOut σ b)).1 (bNextState σ b) ∧
      (bStep pm (bBranchOut σ b)).2.getD (bNextState σ b) 0 = σ := by
  have hinitQ : ∀ ns : Nat,
      (List.replicate 64 bINF, List.replicate 64 (0 : Nat)).1.length = 64 ∧
      (List.replicate 64 bINF, List.replicate 64 (0 : Nat)).2.length = 64 ∧
      ((List.replicate 64 bINF, List.replicate 64 (0 : Nat)).1.getD ns bINF = bINF ∨
        1 ≤ (List.replicate 64 bINF, List.replicate 64 (0 : Nat)).1.getD ns bINF) := by
    intro ns
    exact ⟨List.length_replicate _ _, List.length_replicate _ _,
      Or.inl (getD_replicate_self _ _ _)⟩
  have hQall : ∀ ns, ns < 64 → bNextState σ b ≠ ns →
      ((bStep pm (bBranchOut σ b)).1.getD ns bINF = bINF ∨
        1 ≤ (bStep pm (bBranchOut σ b)).1.getD ns bINF) := by
    intro ns hns hne2
    have := foldl_invar (bScan pm (bBranchOut σ b))
      (fun acc => acc.1.length = 64 ∧ acc.2.length = 64 ∧
        (acc.1.getD ns bINF = bINF ∨ 1 ≤ acc.1.getD ns bINF))
      (List.range 64)
      (fun acc s hsmem hQ =>
        bScan_presQ pm σ b hgood hσ hb ns hns hne2 s (List.mem_range.mp hsmem) acc hQ)
      (List.replicate 64 bINF, List.replicate 64 0) (hinitQ ns)
    exact this.2.2
  have hPh : (bStep pm (bBranchOut σ b)).1.length = 64 ∧
      (bStep pm (bBranchOut σ b)).2.length = 64 ∧
      (bStep pm (bBranchOut σ b)).1.getD (bNextState σ b) bINF = 0 ∧
      (bStep pm (bBranchOut σ b)).2.getD (bNextState σ b) 0 = σ := by
    unfold bStep
    rw [range64_split σ hσ, List.foldl_append, List.foldl_cons]
    have h1 := foldl_invar (bScan pm (bBranchOut σ b))
      (fun acc => acc.1.length = 64 ∧ acc.2.length = 64 ∧
        (acc.1.getD (bNextState σ b) bINF = bINF ∨
          1 ≤ acc.1.getD (bNextState σ b) bINF))
      (List.range' 0 σ)
      (fun acc s hsmem hQ => by
        have hsb := List.mem_range'_1.mp hsmem
        exact bScan_presP1 pm σ b hgood hσ hb s (by omega) (by omega) acc hQ)
      (List.replicate 64 bINF, List.replicate 64 0) (hinitQ (bNextState σ b))
    have h2 := bScan_sigma pm σ b hgood hσ hb _ h1
    exact foldl_invar (bScan pm (bBranchOut σ b))
      (fun acc => acc.1.length = 64 ∧ acc.2.length = 64 ∧
        acc.1.getD (bNextState σ b) bINF = 0 ∧ acc.2.getD (bNextState σ b) 0 = σ)
      (List.range' (σ + 1) (63 - σ))
      (fun acc s hsmem hP => by
        have hsb := List.mem_range'_1.mp hsmem
        exact bScan_presP3 pm σ b hgood hσ hb s (by omega) acc hP)
      _ h2
  refine ⟨⟨hPh.1, hPh.2.2.1, ?_, ?_⟩, hPh.2.2.2⟩
  · intro s hs
    by_cases hsns : bNextState σ b = s
    · right
      rw [← hsns, hPh.2.2.1]
    · rcases hQall s hs hsns with h | h
      · exact Or.inl h
      · exact Or.inr (by linarith)
  · intro s hs h0
    by_cases hsns : bNextState σ b = s
    · exact hsns.symm
    · rcases hQall s hs hsns with h | h
      · rw [h] at h0
        exact absurd h0 (by decide)
      · omega

theorem bTracebackGo_append (l1 l2 : List (List Nat)) :
    ∀ (s : Nat) (acc : List Nat),
      bTracebackGo (l1 ++ l2) s acc =
        bTracebackGo l2 (bTracebackGo l1 s acc).2 (bTracebackGo l1 s acc).1 := by
  induction l1 with
  | nil => intro s acc; rfl
  | cons d rest ih =>
    intro s acc
    simp only [List.cons_append, bTracebackGo]
    exact ih _ _

/-- Main induction for the alternate decoder under zero noise: starting from
a metric array that is good for the encoder register `σ`, consuming the
symbol pairs of `convEncodeB σ u` keeps the array good for the final
register, and the traceback from the final register recovers `u` and lands
back on `σ`. -/
theorem bForward_correct (u : List Nat) :
    bitsValid u → ∀ σ, σ < 64 → ∀ (pm : List Int), goodB pm σ →
      goodB (bForward pm (toPairs (convEncodeB σ u))).1 (srFrom σ u) ∧
        ∀ (acc : List Nat),
          bTracebackGo (bForward pm (toPairs (convEncodeB σ u))).2.reverse
              (srFrom σ u) acc =
            (u ++ acc, σ) := by
  induction u with
  | nil =>
    intro _ σ _ pm hm
    exact ⟨hm, fun acc => rfl⟩
  | cons b rest ih =>
    intro hval σ hσ pm hm
    have hb : b < 2 := hval b (List.mem_cons_self b rest)
    have hrest : bitsValid rest := fun x hx => hval x (List.mem_cons_of_mem b hx)
    have hunf : toPairs (convEncodeB σ (b :: rest)) =
        ((encB σ b).1, (encB σ b).2.1) :: toPairs (convEncodeB ((encB σ b).2.2) rest) :=
      rfl
    rw [hunf]
    have hfw : bForward pm
        (((encB σ b).1, (encB σ b).2.1) :: toPairs (convEncodeB ((encB σ b).2.2) rest)) =
        ((bForward (bStep pm ((((encB σ b).1) <<< 1) ||| (encB σ b).2.1)).1
            (toPairs (convEncodeB ((encB σ b).2.2) rest))).1,
          (bStep pm ((((encB σ b).1) <<< 1) ||| (encB σ b).2.1)).2 ::
            (bForward (bStep pm ((((encB σ b).1) <<< 1) ||| (encB σ b).2.1)).1
              (toPairs (convEncodeB ((encB σ b).2.2) rest))).2) := rfl
    rw [hfw, encB_rx σ b, encB_state σ b]
    have hsr : srFrom σ (b :: rest) = srFrom (bNextState σ b) rest := rfl
    rw [hsr]
    have hstep := bStep_good pm σ b hm hσ hb
    have hihx := ih hrest (bNextState σ b) (bNextState_lt σ b)
      (bStep pm (bBranchOut σ b)).1 hstep.1
    refine ⟨hihx.1, fun acc => ?_⟩
    simp only [List.reverse_cons]
    rw [bTracebackGo_append]
    rw [hihx.2 acc]
    simp only [bTracebackGo]
    rw [hstep.2]
    interval_cases b
    · rw [if_neg (Ne.symm (bNext_children σ hσ))]
      rfl
    · rw [if_pos rfl]
      rfl

/-- The first-minimum scan over states `1 … k` with default `d`: the result
is at most `k` and its entry is a lower bound for all entries up to `k`. -/
theorem argminD_bound_le (m : List Int) (d : Int) :
    ∀ (k : Nat), k ≤ 63 →
      (List.range k).foldl
          (fun best i => if m.getD (i + 1) d < m.getD best d then i + 1 else best) 0 ≤ k ∧
        ∀ j, j ≤ k →
          m.getD ((List.range k).foldl
            (fun best i => if m.getD (i + 1) d < m.getD best d then i + 1 else best) 0) d ≤
            m.getD j d := by
  intro k
  induction k with
  | zero =>
    intro _
    refine ⟨le_refl 0, fun j hj => ?_⟩
    rw [Nat.le_zero.mp hj]
    simp
  | succ k ih =>
    intro hk
    obtain ⟨ihb, ihle⟩ := ih (by omega)
    rw [List.range_succ, List.foldl_append, List.foldl_cons, List.foldl_nil]
    constructor
    · split <;> omega
    · intro j hj
      split
      · rename_i hlt
        rcases Nat.lt_or_ge j (k + 1) with hj2 | hj2
        · exact le_of_lt (lt_of_lt_of_le hlt (ihle j (by omega)))
        · have : j = k + 1 := by omega
          rw [this]
      · rename_i hge
        rcases Nat.lt_or_ge j (k + 1) with hj2 | hj2
        · exact ihle j (by omega)
        · have : j = k + 1 := by omega
          rw [this]
          exact le_of_not_lt hge

theorem bBest_spec (m : List Int) :
    bBest m < 64 ∧ ∀ s, s < 64 → m.getD (bBest m) bINF ≤ m.getD s bINF := by
  obtain ⟨hb, hle⟩ := argminD_bound_le m bINF 63 (le_refl 63)
  exact ⟨by unfold bBest; omega, fun s hs => hle s (by omega)⟩

theorem goodB_bInit : goodB bInit 0 := by
  refine ⟨by simp [bInit], ?_, ?_, ?_⟩
  · rw [bInit, getD_set_self _ _ _ 0 (by simp)]
  · intro s hs
    rcases Nat.eq_zero_or_pos s with h0 | h0
    · right; rw [h0, bInit, getD_set_self _ _ _ 0 (by simp)]
    · left
      rw [bInit, getD_set_ne _ _ _ 0 s (by omega), getD_replicate_self]
  · intro s hs hz
    by_contra hne
    rw [bInit, getD_set_ne _ _ _ 0 s (by omega), getD_replicate_self] at hz
    exact absurd hz (by decide)

/-- Zero-noise correctness of the alternate 0x79/0x5B decoder against its
own encoder `conv_encode_k7`: decoding the symbol pairs of `convEncodeB 0 u`
returns exactly `u` for every nonempty valid bit stream. -/
theorem bViterbi_zero_noise (u : List Nat) (hval : bitsValid u) (hne : u ≠ []) :
    bDecode (toPairs (convEncodeB 0 u)) = u := by
  obtain ⟨hgood, htb⟩ := bForward_correct u hval 0 (by norm_num) bInit goodB_bInit
  have hσf : srFrom 0 u < 64 := srFrom_lt u 0 (by norm_num)
  obtain ⟨hblt, hble⟩ := bBest_spec (bForward bInit (toPairs (convEncodeB 0 u))).1
  have hb0 : (bForward bInit (toPairs (convEncodeB 0 u))).1.getD
      (bBest (bForward bInit (toPairs (convEncodeB 0 u))).1) bINF = 0 := by
    have h1 : (bForward bInit (toPairs (convEncodeB 0 u))).1.getD
        (bBest (bForward bInit (toPairs (convEncodeB 0 u))).1) bINF ≤ 0 := by
      have := hble (srFrom 0 u) hσf
      rw [hgood.2.1] at this
      exact this
    rcases hgood.2.2.1 _ hblt with h | h
    · rw [h] at h1
      exact absurd h1 (not_le.mpr bINF_pos)
    · exact le_antisymm h1 h
  have hbest : bBest (bForward bInit (toPairs (convEncodeB 0 u))).1 = srFrom 0 u :=
    hgood.2.2.2 _ hblt hb0
  rcases u with _ | ⟨b, rest⟩
  · exact absurd rfl hne
  · have hsc : toPairs (convEncodeB 0 (b :: rest)) =
        ((encB 0 b).1, (encB 0 b).2.1) ::
          toPairs (convEncodeB ((encB 0 b).2.2) rest) := rfl
    have hdec : bDecode (toPairs (convEncodeB 0 (b :: rest))) =
        (bTracebackGo (bForward bInit (toPairs (convEncodeB 0 (b :: rest)))).2.reverse
          (bBest (bForward bInit (toPairs (convEncodeB 0 (b :: rest)))).1) []).1 := by
      rw [hsc]
      rfl
    rw [hdec, hbest, htb []]
    simp

/-! ### The two decoders disagree: a codeword collision -/

/-- Leading zero bits keep the canonical encoder in register 0 and emit
zero pairs. -/
theorem convEncode_rep0 (l : List Nat) :
    ∀ n, convEncode 0 (List.replicate n 0 ++ l) =
      List.replicate (2 * n) 0 ++ convEncode 0 l := by
  intro n
  induction n with
  | zero => rfl
  | succ n ih =>
    rw [List.replicate_succ, List.cons_append]
    show (0 : Nat) :: 0 :: convEncode 0 (List.replicate n 0 ++ l) = _
    rw [ih, show 2 * (n + 1) = (2 * n) + 1 + 1 by omega,
      List.replicate_succ, List.replicate_succ]
    rfl

/-- Leading zero bits keep the alternate encoder in register 0 and emit
zero pairs. -/
theorem convEncodeB_rep0 (l : List Nat) :
    ∀ n, convEncodeB 0 (List.replicate n 0 ++ l) =
      List.replicate (2 * n) 0 ++ convEncodeB 0 l := by
  intro n
  induction n with
  | zero => rfl
  | succ n ih =>
    rw [List.replicate_succ, List.cons_append]
    show (0 : Nat) :: 0 :: convEncodeB 0 (List.replicate n 0 ++ l) = _
    rw [ih, show 2 * (n + 1) = (2 * n) + 1 + 1 by omega,
      List.replicate_succ, List.replicate_succ]
    rfl

/-- A 1072-bit frame with a single 1 bit at position 1069. -/
def uImp : List Nat := List.replicate 1069 0 ++ 1 :: List.replicate 2 0

/-- A 1072-bit frame with 1 bits at positions 1069 and 1071. -/
def vImp : List Nat := List.replicate 1069 0 ++ [1, 0, 1]

/-- The codeword collision: because the truncated impulse responses of the
two mask sets coincide on the final three symbol pairs, the canonical
0x4F/0x6D encoding of `uImp` equals the 0x79/0x5B encoding of `vImp`. -/
theorem collision_uImp_vImp : convEncode 0 uImp = convEncodeB 0 vImp := by
  rw [uImp, vImp, convEncode_rep0, convEncodeB_rep0]
  rfl

theorem vImp_ne_uImp : vImp ≠ uImp := by
  rw [uImp, vImp]
  intro h
  have h2 := List.append_cancel_left h
  exact absurd h2 (by decide)

theorem uImp_length : uImp.length = 1072 := by simp [uImp]

theorem uImp_valid : bitsValid uImp := by
  intro x hx
  rw [uImp] at hx
  rcases List.mem_append.mp hx with h | h
  · rw [List.eq_of_mem_replicate h]; norm_num
  · rcases List.mem_cons.mp h with h | h
    · rw [h]; norm_num
    · rw [List.eq_of_mem_replicate h]; norm_num

theorem vImp_valid : bitsValid vImp := by
  intro x hx
  rw [vImp] at hx
  rcases List.mem_append.mp hx with h | h
  · rw [List.eq_of_mem_replicate h]; norm_num
  · fin_cases h <;> norm_num

theorem vImp_ne_nil : vImp ≠ [] := by
  rw [vImp]
  intro h
  have := congrArg List.length h
  simp at this

/-- **C7** — The two Viterbi decoders in the source are not equivalent.
There is a valid 1072-bit frame `u` whose noise-free canonical codeword
`convEncode 0 u` (masks 0x4F/0x6D) is decoded differently by the two
decoders: the canonical soft decoder (fed the ideal soft image of the
codeword) and the alternate 0x79/0x5B decoder (fed the same codeword as
hard symbol pairs) return different bit streams, and in particular the
alternate decoder fails the zero-noise loopback round trip against the
canonical TX encoder. -/
theorem viterbi_decoders_inequivalent :
    ∃ u : List Nat, bitsValid u ∧ u.length = 1072 ∧
      bDecode (toPairs (convEncode 0 u)) ≠
        (viterbiDecode ((convEncode 0 u).map idealSoft)).1 ∧
      bDecode (toPairs (convEncode 0 u)) ≠ u := by
  refine ⟨uImp, uImp_valid, uImp_length, ?_, ?_⟩
  · have hA : (viterbiDecode ((convEncode 0 uImp).map idealSoft)).1 = uImp := by
      rw [viterbi_zero_noise uImp uImp_valid]
    rw [hA, collision_uImp_vImp, bViterbi_zero_noise vImp vImp_valid vImp_ne_nil]
    exact vImp_ne_uImp
  · rw [collision_uImp_vImp, bViterbi_zero_noise vImp vImp_valid vImp_ne_nil]
    exact vImp_ne_uImp

end OPV
